import Mathlib

/-!
Verification of the rust-ipfs core against its specification.

Three components are embedded shallowly:

* the sled-backed pin store (`src/repo/kv.rs`): the database is an
  association list from string keys to string values; each transactional
  operation becomes a pure function from database to database (aborted
  transactions return an error and leave the database unchanged, which
  matches sled's rollback of aborted transactions);
* the bitswap behaviour (`deprecated/bitswap/src/behaviour.rs`): an
  explicit state machine; the `Ledger`/`Message` types live in
  `ledger.rs`, which is not part of the sources at hand, so they are
  modelled from the specification text (§4.B) and marked as such;
* the UnixFS `get` stream (`src/unixfs/get.rs`): the generator loop is
  embedded as a recursive function over a script of walk outcomes (the
  walker and the block provider are external collaborators).

CIDs are modelled by their canonical text form (a plain string): the
pin store only ever stores and compares the text form produced by
`Display`/`to_string`, and `Cid::from_str` round-trips it, so parsing a
stored value is the identity in the model.
-/

namespace PinKv

/-- CIDs in the pin store, modelled by their canonical text form. -/
abbrev Cid := String

/-- `PinMode` from `src/repo/mod.rs` (declaration only; behaviour is in `kv.rs`). -/
inductive PinMode
  | direct
  | recursive
  | indirect
deriving DecidableEq, Repr

/-- `PinKind` with payload, as returned by `query`. -/
inductive PinKind
  | direct
  | recursive (depth : Nat)
  | indirectFrom (cid : Cid)
deriving DecidableEq, Repr

/-- The sled default tree: an association list from keys to values,
in insertion order. Only the claims at hand never depend on sled's
key-sorted iteration order (at most one key is live when `list` runs). -/
abbrev Db := List (String × String)

/-- Single-key read of the transactional tree. -/
def dbGet : Db → String → Option String
  | [], _ => none
  | (k, v) :: rest, key => if k = key then some v else dbGet rest key

/-- Single-key write: overwrite an existing binding in place, else append. -/
def dbInsert : Db → String → String → Db
  | [], key, v => [(key, v)]
  | (k, w) :: rest, key, v =>
    if k = key then (key, v) :: rest else (k, w) :: dbInsert rest key v

/-- Single-key removal. -/
def dbRemove : Db → String → Db
  | [], _ => []
  | (k, v) :: rest, key =>
    if k = key then dbRemove rest key else (k, v) :: dbRemove rest key

/-- `pin_mode_literal` from `kv.rs`. -/
def pin_mode_literal : PinMode → String
  | PinMode.direct => "d"
  | PinMode.indirect => "i"
  | PinMode.recursive => "r"

/-- `get_pin_key` from `kv.rs`: `format!("pin.{}.{}", pin_mode_literal(pin_mode), cid)`. -/
def get_pin_key (cid : Cid) (pin_mode : PinMode) : String :=
  "pin." ++ pin_mode_literal pin_mode ++ "." ++ cid

/-- `direct_value` from `kv.rs`: the empty value. -/
def direct_value : String := ""

/-- `recursive_value` from `kv.rs`: the empty value. -/
def recursive_value : String := ""

/-- `indirect_value` from `kv.rs`: the text form of the recursively pinned ancestor. -/
def indirect_value (recursively_pinned : Cid) : Cid := recursively_pinned

/-- `cid_from_indirect_value` from `kv.rs`; the model's CIDs are already text,
so the parse is the identity. -/
def cid_from_indirect_value (bytes : String) : Cid := bytes

/-- `get_pinned_mode` from `kv.rs`: probe Direct, Recursive, Indirect in that
order, returning the first mode found together with the key probed. -/
def get_pinned_mode (db : Db) (block : Cid) : Option (PinMode × String) :=
  if (dbGet db (get_pin_key block PinMode.direct)).isSome then
    some (PinMode.direct, get_pin_key block PinMode.direct)
  else if (dbGet db (get_pin_key block PinMode.recursive)).isSome then
    some (PinMode.recursive, get_pin_key block PinMode.recursive)
  else if (dbGet db (get_pin_key block PinMode.indirect)).isSome then
    some (PinMode.indirect, get_pin_key block PinMode.indirect)
  else
    none

/-- `is_not_pinned_or_pinned_indirectly` from `kv.rs`. -/
def is_not_pinned_or_pinned_indirectly (db : Db) (block : Cid) : Bool :=
  match get_pinned_mode db block with
  | some (PinMode.indirect, _) => true
  | none => true
  | _ => false

/-- `PinStore::is_pinned` for `KvDataStore`. -/
def is_pinned (db : Db) (cid : Cid) : Bool :=
  (get_pinned_mode db cid).isSome

/-- `PinStore::insert_direct_pin` for `KvDataStore`: the whole transaction as
a database transformer; `Except.error` is the aborted transaction (sled rolls
the tree back, so no new database is returned). -/
def insert_direct_pin (db : Db) (target : Cid) : Except String Db :=
  match get_pinned_mode db target with
  | some (PinMode.direct, _) => Except.ok db
  | some (PinMode.recursive, _) => Except.error "already pinned recursively"
  | some (PinMode.indirect, key) =>
    Except.ok (dbInsert (dbRemove db key) (get_pin_key target PinMode.direct) direct_value)
  | none =>
    Except.ok (dbInsert db (get_pin_key target PinMode.direct) direct_value)

/-- A BTreeSet collected from an iterator: sorted, duplicate-free insertion. -/
def sortedInsert (x : String) : List String → List String
  | [] => [x]
  | y :: ys =>
    if x = y then y :: ys
    else if x < y then x :: y :: ys
    else y :: sortedInsert x ys

/-- `referenced.try_collect::<BTreeSet<_>>()` in `insert_recursive_pin`. -/
def collectSet (refs : List Cid) : List Cid :=
  refs.foldl (fun acc c => sortedInsert c acc) []

/-- `PinStore::insert_recursive_pin` for `KvDataStore`. The transaction is
infallible: if already pinned recursively it is a no-op; a direct or indirect
key is deleted; the recursive key is written; every referenced CID that is not
already pinned under any mode gets an indirect key valued with the target's
text form. -/
def insert_recursive_pin (db : Db) (target : Cid) (referenced : List Cid) : Db :=
  let set := collectSet referenced
  match get_pinned_mode db target with
  | some (PinMode.recursive, _) => db
  | already_pinned =>
    let db1 := match already_pinned with
      | some (_, key) => dbRemove db key
      | none => db
    let db2 := dbInsert db1 (get_pin_key target PinMode.recursive) recursive_value
    let target_value := indirect_value target
    set.foldl
      (fun acc cid =>
        if (get_pinned_mode acc cid).isSome then acc
        else dbInsert acc (get_pin_key cid PinMode.indirect) target_value)
      db2

/-- `PinStore::remove_direct_pin` for `KvDataStore`. -/
def remove_direct_pin (db : Db) (target : Cid) : Except String Db :=
  if is_not_pinned_or_pinned_indirectly db target then
    Except.error "not pinned or pinned indirectly"
  else
    Except.ok (dbRemove db (get_pin_key target PinMode.direct))

/-- Modelled from the spec: `PinModeRequirement::matches` (the type lives in
`src/repo/mod.rs`, which is not among the sources): a `None` filter matches
every mode, `Some m` matches exactly `m`. -/
def requirement_matches : Option PinMode → PinMode → Bool
  | none, _ => true
  | some m, mode => decide (m = mode)

/-- The matching tail of the `list` scan body: emit `(cid, mode)` when the
mode matches the filter, else skip the key. The CID text starts at byte 6. -/
def list_emit (req : Option PinMode) (mode : PinMode) (k : List Char) :
    Option (Except String (Cid × PinMode)) :=
  if requirement_matches req mode then
    some (Except.ok (String.mk (k.drop 6), mode))
  else
    none

/-- One step of the `list` range scan: classify a raw key. Keys not starting
with `pin.` or shorter than 7 bytes are invalid; the mode letter is byte 4.
The CID parse is total in the model (text-form CIDs). -/
def list_entry (req : Option PinMode) (key : String) : Option (Except String (Cid × PinMode)) :=
  let k := key.toList
  if k.take 4 ≠ "pin.".toList ∨ k.length < 7 then
    some (Except.error ("invalid pin: " ++ key))
  else
    match k.getD 4 ' ' with
    | 'd' => list_emit req PinMode.direct k
    | 'r' => list_emit req PinMode.recursive k
    | 'i' => list_emit req PinMode.indirect k
    | x => some (Except.error ("invalid pinmode: " ++ String.mk [x]))

/-- `PinStore::list` for `KvDataStore`: a full range scan of the tree,
classifying every key; errors surface as stream items. -/
def list (db : Db) (req : Option PinMode) : List (Except String (Cid × PinMode)) :=
  db.filterMap (fun kv => list_entry req kv.1)

/-- `PinStore::query` for `KvDataStore`: probe every input CID's mode inside
one transaction, build the `PinKind`, and zip-filter so that CIDs that do not
match the filter are omitted. -/
def query (db : Db) (ids : List Cid) (req : Option PinMode) : List (Cid × PinKind) :=
  let modes := ids.map (fun id =>
    match get_pinned_mode db id with
    | some (mode, key) =>
      if requirement_matches req mode then
        match mode with
        | PinMode.direct => some PinKind.direct
        | PinMode.recursive => some (PinKind.recursive 0)
        | PinMode.indirect =>
          (dbGet db key).map (fun root => PinKind.indirectFrom (cid_from_indirect_value root))
      else none
    | none => none)
  (ids.zip modes).filterMap (fun p => p.2.map (fun mode => (p.1, mode)))

end PinKv

namespace BitswapM

/-!
The bitswap behaviour from `deprecated/bitswap/src/behaviour.rs`, as an
explicit state machine. Peers and CIDs are abstract identifiers (naturals);
a block's payload plays no role in any claim and equality of blocks is by
CID alone (spec §3), so a block is its CID wrapped in a structure.

The `Ledger` and `Message` types live in `ledger.rs`, and the `MessageWrapper`
type in `protocol.rs`; neither file is among the sources, so those parts are
modelled from the specification text (§4.B and §4.C) and marked as such.
-/

abbrev PeerId := Nat

abbrev Cid := Nat

/-- `Priority` is `i32` in the source; overflow plays no role here. -/
abbrev Priority := Int

/-- A block, identified by its CID (payload omitted: equality is by CID). -/
structure Block where
  cid : Cid
deriving DecidableEq, Repr

/-- Generic association-map snippets standing in for the `HashMap` fields.
`get`/`put`/`del` are lookup, insert-or-overwrite and remove; `update`
applies a function to the value of an existing key (`get_mut`), doing
nothing when the key is absent. -/
def mapGet {β : Type} : List (Nat × β) → Nat → Option β
  | [], _ => none
  | (k, v) :: rest, key => if k = key then some v else mapGet rest key

def mapPut {β : Type} : List (Nat × β) → Nat → β → List (Nat × β)
  | [], key, v => [(key, v)]
  | (k, w) :: rest, key, v =>
    if k = key then (key, v) :: rest else (k, w) :: mapPut rest key v

def mapDel {β : Type} : List (Nat × β) → Nat → List (Nat × β)
  | [], _ => []
  | (k, w) :: rest, key =>
    if k = key then mapDel rest key else (k, w) :: mapDel rest key

def mapUpdate {β : Type} : List (Nat × β) → Nat → (β → β) → List (Nat × β)
  | [], _, _ => []
  | (k, v) :: rest, key, f =>
    if k = key then (key, f v) :: mapUpdate rest key f
    else (k, v) :: mapUpdate rest key f

/-- Modelled from the spec (§4.B, `ledger.rs` not among the sources): the
per-peer ledger. `flushed_wants` records which `sent_want_list` entries have
already been included in a `send()`, so that wants are not re-sent ("after
`send()` the drained structures are empty and must not be re-sent"). -/
structure Ledger where
  sent_want_list : List (Cid × Priority)
  received_want_list : List (Cid × Priority)
  queued_blocks : List Block
  sent_cancels : List Cid
  flushed_wants : List Cid
deriving DecidableEq, Repr

/-- `Ledger::new()`: everything empty. -/
def Ledger.new : Ledger := ⟨[], [], [], [], []⟩

/-- Modelled from the spec: `want_block(cid, priority)`: insert or overwrite
into `sent_want_list`; if present in `sent_cancels`, remove it there. An
overwritten want counts as unsent again. -/
def Ledger.want_block (l : Ledger) (cid : Cid) (priority : Priority) : Ledger :=
  { l with
    sent_want_list := mapPut l.sent_want_list cid priority
    sent_cancels := l.sent_cancels.filter (fun c => c ≠ cid)
    flushed_wants := l.flushed_wants.filter (fun c => c ≠ cid) }

/-- Modelled from the spec: `cancel_block(cid)`: remove from
`sent_want_list`; if it WAS present, insert into `sent_cancels`. -/
def Ledger.cancel_block (l : Ledger) (cid : Cid) : Ledger :=
  if (mapGet l.sent_want_list cid).isSome then
    { l with
      sent_want_list := mapDel l.sent_want_list cid
      flushed_wants := l.flushed_wants.filter (fun c => c ≠ cid)
      sent_cancels :=
        if l.sent_cancels.any (fun c => c = cid) then l.sent_cancels
        else l.sent_cancels ++ [cid] }
  else l

/-- Modelled from the spec: `add_block(block)`: append to `queued_blocks`
if not already queued. -/
def Ledger.add_block (l : Ledger) (block : Block) : Ledger :=
  if l.queued_blocks.any (fun q => q.cid = block.cid) then l
  else { l with queued_blocks := l.queued_blocks ++ [block] }

/-- Modelled from the spec: `wantlist()`: snapshot of the peer's
`received_want_list`. -/
def Ledger.wantlist (l : Ledger) : List (Cid × Priority) :=
  l.received_want_list

/-- Modelled from the spec: a wire message: a wantlist entries section, a
cancel section and a blocks section. -/
structure Message where
  want : List (Cid × Priority)
  cancel : List Cid
  blocks : List Block
deriving DecidableEq, Repr

/-- The wants of the ledger not yet included in any sent message. -/
def Ledger.unsent_wants (l : Ledger) : List (Cid × Priority) :=
  l.sent_want_list.filter (fun cp => ¬ l.flushed_wants.any (fun c => c = cp.1))

/-- Modelled from the spec: `send()`: drains `queued_blocks` and
`sent_cancels` and emits the unsent wants; returns `none` iff all three are
empty, otherwise the outbound message and the drained ledger. -/
def Ledger.send (l : Ledger) : Option (Message × Ledger) :=
  if l.queued_blocks = [] ∧ l.sent_cancels = [] ∧ l.unsent_wants = [] then none
  else
    some
      (⟨l.unsent_wants, l.sent_cancels, l.queued_blocks⟩,
       { l with
         queued_blocks := []
         sent_cancels := []
         flushed_wants := l.flushed_wants ++ (l.unsent_wants.map (fun cp => cp.1)) })

/-- `BitswapEvent` from `behaviour.rs`. -/
inductive BitswapEvent
  | receivedBlock (peer : PeerId) (block : Block)
  | receivedWant (peer : PeerId) (cid : Cid) (priority : Priority)
  | receivedCancel (peer : PeerId) (cid : Cid)
deriving DecidableEq, Repr

/-- The dial condition attached by `connect`: `PeerCondition::Disconnected`. -/
inductive DialCond
  | disconnected
deriving DecidableEq, Repr

/-- `NetworkBehaviourAction` as used by this behaviour: a gated dial, a
handler notification carrying a message, or a user-facing event. -/
inductive Action
  | dial (peer : PeerId) (cond : DialCond)
  | notifyHandler (peer : PeerId) (msg : Message)
  | generateEvent (ev : BitswapEvent)
deriving DecidableEq, Repr

/-- Per-peer statistics; `sent_blocks` is the only counter the behaviour
itself updates (`update_outgoing` in `poll`), so the others are omitted. -/
structure Stats where
  sent_blocks : Nat
deriving DecidableEq, Repr

/-- The `Bitswap` behaviour state. The two channels (`ready_blocks`,
`dont_have_rx`) are external inputs and appear as arguments of `poll`. -/
structure Bitswap where
  events : List Action
  target_peers : List PeerId
  connected_peers : List (PeerId × Ledger)
  wanted_blocks : List (Cid × Priority)
  stats : List (PeerId × Stats)
deriving DecidableEq, Repr

/-- `Bitswap::default()`. -/
def Bitswap.init : Bitswap := ⟨[], [], [], [], []⟩

/-- `local_wantlist`: the wantlist of the local node. -/
def Bitswap.local_wantlist (s : Bitswap) : List (Cid × Priority) :=
  s.wanted_blocks

/-- `connect`: if the peer is newly inserted into `target_peers`, push a
Dial event gated on the peer being currently disconnected; else do nothing. -/
def Bitswap.connect (s : Bitswap) (peer_id : PeerId) : Bitswap :=
  if s.target_peers.any (fun q => q = peer_id) then s
  else
    { s with
      target_peers := s.target_peers ++ [peer_id]
      events := s.events ++ [Action.dial peer_id DialCond.disconnected] }

/-- `send_block`: queue a block on the peer's ledger, if connected. -/
def Bitswap.send_block (s : Bitswap) (peer_id : PeerId) (block : Block) : Bitswap :=
  { s with
    connected_peers := mapUpdate s.connected_peers peer_id (fun l => l.add_block block) }

/-- `send_want_list`: if the local wantlist is non-empty, push a
NotifyHandler event carrying a message wanting every wanted block. -/
def Bitswap.send_want_list (s : Bitswap) (peer_id : PeerId) : Bitswap :=
  if s.wanted_blocks = [] then s
  else
    { s with
      events := s.events ++ [Action.notifyHandler peer_id ⟨s.wanted_blocks, [], []⟩] }

/-- `want_block`: queue the wanted block for every connected peer and record
it in the global wantlist. -/
def Bitswap.want_block (s : Bitswap) (cid : Cid) (priority : Priority) : Bitswap :=
  { s with
    connected_peers := s.connected_peers.map (fun pl => (pl.1, pl.2.want_block cid priority))
    wanted_blocks := mapPut s.wanted_blocks cid priority }

/-- `want_block_from_peers`: queue the wanted block only for the listed
peers, but still record it in the global wantlist. -/
def Bitswap.want_block_from_peers (s : Bitswap) (cid : Cid) (priority : Priority)
    (peers : List PeerId) : Bitswap :=
  { s with
    connected_peers :=
      peers.foldl (fun acc p => mapUpdate acc p (fun l => l.want_block cid priority))
        s.connected_peers
    wanted_blocks := mapPut s.wanted_blocks cid priority }

/-- `dont_have_for_peer`: drop the CID from the addressed peer's
`received_want_list`. -/
def Bitswap.dont_have_for_peer (s : Bitswap) (peer_id : PeerId) (cid : Cid) : Bitswap :=
  { s with
    connected_peers := mapUpdate s.connected_peers peer_id
      (fun l => { l with received_want_list := mapDel l.received_want_list cid }) }

/-- `cancel_block`: remove the block from the local want list and update
every connected peer's ledger. -/
def Bitswap.cancel_block (s : Bitswap) (cid : Cid) : Bitswap :=
  { s with
    connected_peers := s.connected_peers.map (fun pl => (pl.1, pl.2.cancel_block cid))
    wanted_blocks := mapDel s.wanted_blocks cid }

/-- `FromSwarm::ConnectionEstablished`: drop the peer from `target_peers`,
ensure a stats entry, install a fresh ledger, then `send_want_list`. -/
def Bitswap.connection_established (s : Bitswap) (peer_id : PeerId) : Bitswap :=
  Bitswap.send_want_list
    { s with
      target_peers := s.target_peers.filter (fun q => q ≠ peer_id)
      stats :=
        if (mapGet s.stats peer_id).isSome then s.stats else s.stats ++ [(peer_id, ⟨0⟩)]
      connected_peers := mapPut s.connected_peers peer_id Ledger.new }
    peer_id

/-- `FromSwarm::ConnectionClosed`: drop the ledger (stats retained). -/
def Bitswap.connection_closed (s : Bitswap) (peer_id : PeerId) : Bitswap :=
  { s with connected_peers := mapDel s.connected_peers peer_id }

/-- Modelled from the spec (`protocol.rs` not among the sources): the
handler's output, either an acknowledgement of our own outgoing message
(`Tx`) or a received message (`Rx`). -/
inductive MessageWrapper
  | tx
  | rx (msg : Message)
deriving DecidableEq, Repr

/-- Phase 1 of inbound processing, the first for-loop: for every cancelled
CID, remove it from the source's `received_want_list` and emit
`ReceivedCancel`. -/
def Bitswap.applyCancels (s : Bitswap) (source : PeerId) : List Cid → Bitswap
  | [] => s
  | cid :: rest =>
    Bitswap.applyCancels
      { s with
        connected_peers := mapUpdate s.connected_peers source
          (fun l => { l with received_want_list := mapDel l.received_want_list cid })
        events := s.events ++
          [Action.generateEvent (BitswapEvent.receivedCancel source cid)] }
      source rest

/-- Phase 2 of inbound processing, the second for-loop: for every remaining
want entry, insert it into the source's `received_want_list` and emit
`ReceivedWant`. (The caller filters the entries against the snapshot of the
local wantlist.) -/
def Bitswap.applyWants (s : Bitswap) (source : PeerId) : List (Cid × Priority) → Bitswap
  | [] => s
  | cp :: rest =>
    Bitswap.applyWants
      { s with
        connected_peers := mapUpdate s.connected_peers source
          (fun l => { l with received_want_list := mapPut l.received_want_list cp.1 cp.2 })
        events := s.events ++
          [Action.generateEvent (BitswapEvent.receivedWant source cp.1 cp.2)] }
      source rest

/-- Phase 3 of inbound processing, the third for-loop: for every received
block, `cancel_block` its CID engine-wide, then emit `ReceivedBlock`. -/
def Bitswap.applyBlocks (s : Bitswap) (source : PeerId) : List Block → Bitswap
  | [] => s
  | block :: rest =>
    Bitswap.applyBlocks
      { s.cancel_block block.cid with
        events := (s.cancel_block block.cid).events ++
          [Action.generateEvent (BitswapEvent.receivedBlock source block)] }
      source rest

/-- `on_connection_handler_event`: a `Tx` acknowledgement does nothing; an
`Rx` message from a peer with no ledger is dropped; otherwise the cancels,
then the wants not already in the local wantlist (snapshot taken at entry),
then the blocks are processed, in that order. -/
def Bitswap.on_connection_handler_event (s : Bitswap) (source : PeerId)
    (wrapper : MessageWrapper) : Bitswap :=
  match wrapper with
  | MessageWrapper.tx => s
  | MessageWrapper.rx message =>
    let current_wantlist := s.local_wantlist
    match mapGet s.connected_peers source with
    | none => s
    | some _ =>
      let s1 := s.applyCancels source message.cancel
      let s2 := s1.applyWants source
        (message.want.filter
          (fun cp => ¬ current_wantlist.any (fun wp => wp.1 = cp.1)))
      s2.applyBlocks source message.blocks

/-- The result of one `poll` call. -/
inductive PollResult
  | pending
  | ready (action : Action)
deriving DecidableEq, Repr

/-- Step 4 of `poll`: walk the connected peers in order and return the first
peer whose `ledger.send()` yields a message, together with the updated peer
map. -/
def pollSends : List (PeerId × Ledger) → Option (PeerId × Message × List (PeerId × Ledger))
  | [] => none
  | (p, l) :: rest =>
    match l.send with
    | some (msg, l1) => some (p, msg, (p, l1) :: rest)
    | none =>
      match pollSends rest with
      | some (q, msg, rest1) => some (q, msg, (p, l) :: rest1)
      | none => none

/-- `poll`: pop a queued event if any; otherwise drain the `dont_have`
channel, then the `ready_blocks` channel, then look for a ledger with an
outbound message (updating that peer's `sent_blocks` statistic); otherwise
report `Pending`. The channel contents are passed as arguments. -/
def Bitswap.poll (s : Bitswap) (dont_have_items : List (PeerId × Cid))
    (ready_block_items : List (PeerId × Block)) : PollResult × Bitswap :=
  match s.events with
  | e :: rest => (PollResult.ready e, { s with events := rest })
  | [] =>
    let s1 := dont_have_items.foldl (fun acc pc => acc.dont_have_for_peer pc.1 pc.2) s
    let s2 := ready_block_items.foldl (fun acc pb => acc.send_block pb.1 pb.2) s1
    match pollSends s2.connected_peers with
    | some (p, msg, conn1) =>
      (PollResult.ready (Action.notifyHandler p msg),
       { s2 with
         connected_peers := conn1
         stats := mapUpdate s2.stats p (fun st => ⟨st.sent_blocks + msg.blocks.length⟩) })
    | none => (PollResult.pending, s2)

/-- The engine-level events the invariant claim quantifies over: user calls,
swarm lifecycle callbacks and handler messages. -/
inductive Event
  | connectEv (p : PeerId)
  | connectionEstablished (p : PeerId)
  | connectionClosed (p : PeerId)
  | wantBlock (cid : Cid) (priority : Priority)
  | wantBlockFromPeers (cid : Cid) (priority : Priority) (peers : List PeerId)
  | cancelBlock (cid : Cid)
  | handlerEvent (source : PeerId) (w : MessageWrapper)
deriving Repr

/-- Apply one engine-level event. -/
def stepEvent (s : Bitswap) : Event → Bitswap
  | Event.connectEv p => s.connect p
  | Event.connectionEstablished p => s.connection_established p
  | Event.connectionClosed p => s.connection_closed p
  | Event.wantBlock c prio => s.want_block c prio
  | Event.wantBlockFromPeers c prio ps => s.want_block_from_peers c prio ps
  | Event.cancelBlock c => s.cancel_block c
  | Event.handlerEvent p w => s.on_connection_handler_event p w

/-- The claimed invariant: every CID of the global wantlist sits in every
connected ledger's `sent_want_list` with the same priority. -/
def WantInvariant (s : Bitswap) : Prop :=
  ∀ p l, mapGet s.connected_peers p = some l →
    ∀ c prio, mapGet s.wanted_blocks c = some prio →
      mapGet l.sent_want_list c = some prio

/-- The side conditions under which an event preserves `WantInvariant`: a
`ConnectionEstablished` needs the global wantlist empty (the fresh ledger's
`sent_want_list` starts empty and `send_want_list` does not write it back),
and `want_block_from_peers` needs its peer list to cover every connected
peer (it skips all the others). Every other event preserves the invariant
unconditionally. -/
def eventOk (s : Bitswap) : Event → Prop
  | Event.connectionEstablished _ => s.wanted_blocks = []
  | Event.wantBlockFromPeers _ _ ps =>
      ∀ p, (mapGet s.connected_peers p).isSome → p ∈ ps
  | _ => True

end BitswapM

namespace UnixFsGet

/-!
The UnixFS `get` stream from `src/unixfs/get.rs`. The walker
(`rust_unixfs::walk::Walker`) and the block provider are external
collaborators, so one loop iteration of the generator is driven by a script
entry describing what the fetch, the walker and the sink do on that
iteration; the stream function is the faithful transcription of the loop
body over such a script. The script ending corresponds to
`should_continue()` turning false.

A file segment's write loop (`while n < total`) takes the whole remaining
slice on its first pass (`n += next.len()` with `next = &slice[n..]` makes
`n = total`), so it runs exactly once for a non-empty segment and zero
times for an empty one; the embedding reflects that: one write/fsync per
non-empty segment.

The sink models the durable (written-and-fsynced) contents of the
destination file; a failed `write_all` or `sync_all` leaves it unchanged
(the partial-write behaviour of a failed `write_all` and the durability of
a failed fsync are abstracted away, and nothing ever truncates the sink).
-/

/-- The outcome of the `write_all`/`sync_all` pair for one segment. -/
inductive WriteOutcome
  | ok
  | writeFail
  | syncFail
deriving DecidableEq, Repr

/-- One iteration of `while walker.should_continue()`: the block fetch can
fail; `walker.next` can fail or produce a bucket, a directory (also the
root directory, handled identically), a symlink, or a file segment carrying
its first/last flags, its bytes, the file's total size, and what the sink
does with it. -/
inductive WalkOutcome
  | fetchErr
  | walkErr
  | bucket
  | directory
  | symlink
  | file (isFirst isLast : Bool) (seg : List Nat) (size : Nat) (wr : WriteOutcome)
deriving DecidableEq, Repr

/-- `UnixfsStatus`, reduced to the fields the claims speak about (the error
payload of `FailedStatus` and the path of `CompletedStatus` are dropped). -/
inductive UnixfsStatus
  | progress (written : Nat) (total_size : Option Nat)
  | failed (written : Nat) (total_size : Option Nat)
  | completed (written : Nat) (total_size : Option Nat)
deriving DecidableEq, Repr

/-- The `get` generator loop: from a script of walk outcomes, the current
`written`, `total_size` and sink, produce the yielded statuses and the final
sink contents. -/
def runGet : List WalkOutcome → Nat → Option Nat → List Nat → List UnixfsStatus × List Nat
  | [], written, total, sink => ([UnixfsStatus.completed written total], sink)
  | WalkOutcome.fetchErr :: _, written, total, sink =>
    ([UnixfsStatus.failed written total], sink)
  | WalkOutcome.walkErr :: _, written, total, sink =>
    ([UnixfsStatus.failed written total], sink)
  | WalkOutcome.bucket :: rest, written, total, sink => runGet rest written total sink
  | WalkOutcome.directory :: rest, written, total, sink => runGet rest written total sink
  | WalkOutcome.symlink :: rest, written, total, sink => runGet rest written total sink
  | WalkOutcome.file isFirst isLast seg size wr :: rest, written, total, sink =>
    let total1 := if isFirst then some size else total
    let pre := if isFirst then [UnixfsStatus.progress written total1] else []
    match seg, wr with
    | [], _ =>
      let post := if isLast then [UnixfsStatus.progress written total1] else []
      let r := runGet rest written total1 sink
      (pre ++ post ++ r.1, r.2)
    | _ :: _, WriteOutcome.writeFail => (pre ++ [UnixfsStatus.failed written total1], sink)
    | _ :: _, WriteOutcome.syncFail => (pre ++ [UnixfsStatus.failed written total1], sink)
    | sg, WriteOutcome.ok =>
      let written1 := written + sg.length
      let post := if isLast then [UnixfsStatus.progress written1 total1] else []
      let r := runGet rest written1 total1 (sink ++ sg)
      (pre ++ [UnixfsStatus.progress written1 total1] ++ post ++ r.1, r.2)

/-- Specification instrumentation of `runGet`: the identical loop, except
that each yielded status is paired with the durable sink length at the
moment of the yield (the cumulative number of bytes successfully written
and fsynced so far); `runGetA_fst` proves the projection to the first
components is exactly `runGet`. -/
def runGetA : List WalkOutcome → Nat → Option Nat → List Nat →
    List (UnixfsStatus × Nat) × List Nat
  | [], written, total, sink => ([(UnixfsStatus.completed written total, sink.length)], sink)
  | WalkOutcome.fetchErr :: _, written, total, sink =>
    ([(UnixfsStatus.failed written total, sink.length)], sink)
  | WalkOutcome.walkErr :: _, written, total, sink =>
    ([(UnixfsStatus.failed written total, sink.length)], sink)
  | WalkOutcome.bucket :: rest, written, total, sink => runGetA rest written total sink
  | WalkOutcome.directory :: rest, written, total, sink => runGetA rest written total sink
  | WalkOutcome.symlink :: rest, written, total, sink => runGetA rest written total sink
  | WalkOutcome.file isFirst isLast seg size wr :: rest, written, total, sink =>
    let total1 := if isFirst then some size else total
    let pre := if isFirst then [(UnixfsStatus.progress written total1, sink.length)] else []
    match seg, wr with
    | [], _ =>
      let post := if isLast then [(UnixfsStatus.progress written total1, sink.length)] else []
      let r := runGetA rest written total1 sink
      (pre ++ post ++ r.1, r.2)
    | _ :: _, WriteOutcome.writeFail =>
      (pre ++ [(UnixfsStatus.failed written total1, sink.length)], sink)
    | _ :: _, WriteOutcome.syncFail =>
      (pre ++ [(UnixfsStatus.failed written total1, sink.length)], sink)
    | sg, WriteOutcome.ok =>
      let written1 := written + sg.length
      let post :=
        if isLast then [(UnixfsStatus.progress written1 total1, (sink ++ sg).length)] else []
      let r := runGetA rest written1 total1 (sink ++ sg)
      (pre ++ [(UnixfsStatus.progress written1 total1, (sink ++ sg).length)] ++ post ++ r.1,
       r.2)

/-- The `written` field of a status. -/
def statusWritten : UnixfsStatus → Nat
  | UnixfsStatus.progress w _ => w
  | UnixfsStatus.failed w _ => w
  | UnixfsStatus.completed w _ => w

/-- The `total_size` field of a status. -/
def statusTotal : UnixfsStatus → Option Nat
  | UnixfsStatus.progress _ t => t
  | UnixfsStatus.failed _ t => t
  | UnixfsStatus.completed _ t => t

/-- Completed and Failed are the terminal events. -/
def isTerminal : UnixfsStatus → Bool
  | UnixfsStatus.progress _ _ => false
  | UnixfsStatus.failed _ _ => true
  | UnixfsStatus.completed _ _ => true

def isProgress : UnixfsStatus → Bool
  | UnixfsStatus.progress _ _ => true
  | _ => false

/-- The written values are non-decreasing, starting from `w`. -/
def monoFrom (w : Nat) : List UnixfsStatus → Bool
  | [] => true
  | st :: rest => decide (w ≤ statusWritten st) && monoFrom (statusWritten st) rest

/-- Once a `total_size` is `some t`, every later one is the same `some t`. -/
def total_size_stable : List (Option Nat) → Bool
  | [] => true
  | none :: rest => total_size_stable rest
  | some t :: rest => rest.all (fun o => o = some t)

/-- Whenever `written` advances past its previous value, the announcing
status is a `ProgressStatus`. -/
def progress_on_advance (w : Nat) : List UnixfsStatus → Bool
  | [] => true
  | st :: rest =>
    (decide (statusWritten st ≤ w) || isProgress st) &&
      progress_on_advance (statusWritten st) rest

/-- Exactly one terminal status, and it is the last item. -/
def terminal_once : List UnixfsStatus → Bool
  | [] => false
  | [st] => isTerminal st
  | st :: rest => !isTerminal st && terminal_once rest

/-- How many file segments in the script carry the first-segment flag (the
walker produces exactly one per file in the walk). -/
def countFirstFile : List WalkOutcome → Nat
  | [] => 0
  | WalkOutcome.file true _ _ _ _ :: rest => countFirstFile rest + 1
  | _ :: rest => countFirstFile rest

end UnixFsGet

/-! ## Supporting lemmas for the pin store -/

namespace PinKv

/-- Reading back an inserted key. -/
theorem dbGet_insert (db : Db) (k v key : String) :
    dbGet (dbInsert db k v) key = if k = key then some v else dbGet db key := by
  induction db with
  | nil => simp [dbInsert, dbGet]
  | cons kv rest ih =>
    obtain ⟨k1, v1⟩ := kv
    by_cases h1 : k1 = k
    · subst h1
      by_cases h2 : k1 = key
      · subst h2
        simp [dbInsert, dbGet]
      · simp [dbInsert, dbGet, h2]
    · simp only [dbInsert, if_neg h1]
      by_cases h2 : k1 = key
      · subst h2
        simp [dbGet, Ne.symm h1]
      · simp [dbGet, h2, ih]

/-- Reading back after a removal. -/
theorem dbGet_remove (db : Db) (k key : String) :
    dbGet (dbRemove db k) key = if k = key then none else dbGet db key := by
  induction db with
  | nil => simp [dbRemove, dbGet]
  | cons kv rest ih =>
    obtain ⟨k1, v1⟩ := kv
    by_cases h1 : k1 = k
    · subst h1
      simp only [dbRemove, if_pos rfl]
      by_cases h2 : k1 = key
      · subst h2
        simp [ih]
      · simp [dbGet, h2, ih]
    · simp only [dbRemove, if_neg h1]
      by_cases h2 : k1 = key
      · subst h2
        simp [dbGet, Ne.symm h1]
      · simp [dbGet, h2, ih]

theorem pin_mode_literal_data (m : PinMode) :
    (pin_mode_literal m).data = [match m with
      | PinMode.direct => 'd' | PinMode.indirect => 'i' | PinMode.recursive => 'r'] := by
  cases m <;> rfl

theorem get_pin_key_data (c : Cid) (m : PinMode) :
    (get_pin_key c m).data =
      'p' :: 'i' :: 'n' :: '.' ::
        (match m with
          | PinMode.direct => 'd' | PinMode.indirect => 'i' | PinMode.recursive => 'r') ::
        '.' :: c.data := by
  cases m <;> simp [get_pin_key, pin_mode_literal, String.data_append]

theorem get_pin_key_inj (c c' : Cid) (m m' : PinMode) :
    get_pin_key c m = get_pin_key c' m' ↔ m = m' ∧ c = c' := by
  constructor
  · intro h
    have hd := congrArg String.data h
    rw [get_pin_key_data, get_pin_key_data] at hd
    cases m <;> cases m' <;> simp_all <;> exact String.ext hd
  · rintro ⟨rfl, rfl⟩
    rfl

theorem get_pin_key_ne_of_mode_ne (c c' : Cid) (m m' : PinMode) (h : m ≠ m') :
    get_pin_key c m ≠ get_pin_key c' m' := by
  intro hk
  exact h ((get_pin_key_inj c c' m m').mp hk).1

theorem get_pin_key_ne_of_cid_ne (c c' : Cid) (m m' : PinMode) (h : c ≠ c') :
    get_pin_key c m ≠ get_pin_key c' m' := by
  intro hk
  exact h ((get_pin_key_inj c c' m m').mp hk).2

theorem string_mk_data (s : String) : String.mk s.data = s := rfl

/-! ## Pin-store claims -/

/-- C8: on a fresh pin store, `insert_direct_pin(B)` succeeds and afterwards
`is_pinned(B)` is true; following it with `remove_direct_pin(B)`, which also
succeeds, makes `is_pinned(B)` false. -/
theorem direct_pin_round_trip (C : Cid) :
    ∃ db1 db2,
      insert_direct_pin [] C = Except.ok db1 ∧
      is_pinned db1 C = true ∧
      remove_direct_pin db1 C = Except.ok db2 ∧
      is_pinned db2 C = false := by
  refine ⟨[(get_pin_key C PinMode.direct, direct_value)], [], rfl, ?_, ?_, rfl⟩
  · simp [is_pinned, get_pinned_mode, dbGet]
  · simp [remove_direct_pin, is_not_pinned_or_pinned_indirectly, get_pinned_mode, dbGet, dbRemove]

/-- C2: on a fresh pin store, after `insert_recursive_pin(C, [])` (which
produces exactly the recursive key for `C`), `insert_direct_pin(C)` fails with
"already pinned recursively"; the aborted transaction leaves the database
unchanged, so `is_pinned(C)` is still true and `list(None)` yields exactly the
single item `(C, Recursive)`. The hypothesis `C.data ≠ []` says the CID text
is non-empty, true of every real CID. -/
theorem recursive_then_direct_conflict (C : Cid) (h : C.data ≠ []) :
    insert_recursive_pin [] C [] = [(get_pin_key C PinMode.recursive, recursive_value)] ∧
    insert_direct_pin (insert_recursive_pin [] C []) C =
      Except.error "already pinned recursively" ∧
    is_pinned (insert_recursive_pin [] C []) C = true ∧
    list (insert_recursive_pin [] C []) none = [Except.ok (C, PinMode.recursive)] := by
  have hdb1 : insert_recursive_pin [] C [] =
      [(get_pin_key C PinMode.recursive, recursive_value)] := rfl
  have hrd : get_pin_key C PinMode.recursive ≠ get_pin_key C PinMode.direct :=
    get_pin_key_ne_of_mode_ne C C _ _ (by decide)
  have hk : (get_pin_key C PinMode.recursive).toList =
      'p' :: 'i' :: 'n' :: '.' :: 'r' :: '.' :: C.data :=
    get_pin_key_data C PinMode.recursive
  have hlen : C.data.length ≠ 0 := by
    intro h0
    exact h (List.length_eq_zero.mp h0)
  refine ⟨hdb1, ?_, ?_, ?_⟩
  · rw [hdb1]
    simp [insert_direct_pin, get_pinned_mode, dbGet, hrd]
  · rw [hdb1]
    simp [is_pinned, get_pinned_mode, dbGet, hrd]
  · rw [hdb1]
    have h7 : ¬ ('p' :: 'i' :: 'n' :: '.' :: 'r' :: '.' :: C.data).length < 7 := by
      simp only [List.length_cons]
      omega
    have hpin : "pin.".toList = ['p', 'i', 'n', '.'] := rfl
    have hentry : list_entry none (get_pin_key C PinMode.recursive) =
        some (Except.ok (C, PinMode.recursive)) := by
      have hlen1 : 1 ≤ String.length C := by
        simp only [String.length]
        omega
      simp only [list_entry, list_emit, requirement_matches, hk]
      simp [h7, hpin, string_mk_data, hlen1]
    simp [list, hentry]

/-- C3: on a fresh pin store, `insert_direct_pin(C)` then
`insert_recursive_pin(C, [D])` (with `D ≠ C`) succeeds, deleting the direct
key for `C`, writing the recursive key for `C` and an indirect key for `D`
valued with `C`'s text form; `query([C, D], None)` then yields exactly
`[(C, Recursive(0)), (D, IndirectFrom(C))]`. -/
theorem direct_then_recursive_demotion (C D : Cid) (hCD : C ≠ D) :
    ∃ db1 db2,
      insert_direct_pin [] C = Except.ok db1 ∧
      insert_recursive_pin db1 C [D] = db2 ∧
      dbGet db2 (get_pin_key C PinMode.direct) = none ∧
      dbGet db2 (get_pin_key C PinMode.recursive) = some recursive_value ∧
      dbGet db2 (get_pin_key D PinMode.indirect) = some (indirect_value C) ∧
      query db2 [C, D] none = [(C, PinKind.recursive 0), (D, PinKind.indirectFrom C)] := by
  have a1 : get_pin_key C PinMode.recursive ≠ get_pin_key C PinMode.direct :=
    get_pin_key_ne_of_mode_ne C C _ _ (by decide)
  have a2 : get_pin_key D PinMode.indirect ≠ get_pin_key C PinMode.direct :=
    get_pin_key_ne_of_mode_ne D C _ _ (by decide)
  have a3 : get_pin_key C PinMode.recursive ≠ get_pin_key D PinMode.direct :=
    get_pin_key_ne_of_mode_ne C D _ _ (by decide)
  have a4 : get_pin_key D PinMode.indirect ≠ get_pin_key D PinMode.direct :=
    get_pin_key_ne_of_mode_ne D D _ _ (by decide)
  have a5 : get_pin_key C PinMode.recursive ≠ get_pin_key D PinMode.recursive :=
    get_pin_key_ne_of_cid_ne C D _ _ hCD
  have a6 : get_pin_key D PinMode.indirect ≠ get_pin_key D PinMode.recursive :=
    get_pin_key_ne_of_mode_ne D D _ _ (by decide)
  have a7 : get_pin_key C PinMode.recursive ≠ get_pin_key D PinMode.indirect :=
    get_pin_key_ne_of_mode_ne C D _ _ (by decide)
  have a8 : get_pin_key C PinMode.direct ≠ get_pin_key D PinMode.direct :=
    get_pin_key_ne_of_cid_ne C D _ _ hCD
  have a9 : get_pin_key C PinMode.direct ≠ get_pin_key D PinMode.recursive :=
    get_pin_key_ne_of_mode_ne C D _ _ (by decide)
  have a10 : get_pin_key C PinMode.direct ≠ get_pin_key D PinMode.indirect :=
    get_pin_key_ne_of_mode_ne C D _ _ (by decide)
  refine ⟨[(get_pin_key C PinMode.direct, direct_value)],
    [(get_pin_key C PinMode.recursive, recursive_value),
     (get_pin_key D PinMode.indirect, indirect_value C)], rfl, ?_, ?_, ?_, ?_, ?_⟩
  · simp [insert_recursive_pin, collectSet, sortedInsert, get_pinned_mode, dbGet,
      dbInsert, dbRemove, a1, a3, a5, a7, a8, a9, a10]
  · simp [dbGet, a1, a2]
  · simp [dbGet]
  · simp [dbGet, a7]
  · simp [query, get_pinned_mode, dbGet, requirement_matches, cid_from_indirect_value,
      a1, a2, a3, a4, a5, a6, a7, indirect_value]

/-- Witness for C2 at the concrete CID text `"a"`. -/
theorem recursive_then_direct_conflict_witness :
    ("a" : String).data ≠ [] ∧
    (insert_recursive_pin [] "a" [] = [(get_pin_key "a" PinMode.recursive, recursive_value)] ∧
     insert_direct_pin (insert_recursive_pin [] "a" []) "a" =
       Except.error "already pinned recursively" ∧
     is_pinned (insert_recursive_pin [] "a" []) "a" = true ∧
     list (insert_recursive_pin [] "a" []) none = [Except.ok ("a", PinMode.recursive)]) :=
  ⟨by decide, recursive_then_direct_conflict "a" (by decide)⟩

/-- Witness for C3 at the concrete CID texts `"a"` and `"b"`. -/
theorem direct_then_recursive_demotion_witness :
    ("a" : String) ≠ "b" ∧
    (∃ db1 db2,
      insert_direct_pin [] "a" = Except.ok db1 ∧
      insert_recursive_pin db1 "a" ["b"] = db2 ∧
      dbGet db2 (get_pin_key "a" PinMode.direct) = none ∧
      dbGet db2 (get_pin_key "a" PinMode.recursive) = some recursive_value ∧
      dbGet db2 (get_pin_key "b" PinMode.indirect) = some (indirect_value "a") ∧
      query db2 ["a", "b"] none =
        [("a", PinKind.recursive 0), ("b", PinKind.indirectFrom "a")]) :=
  ⟨by decide, direct_then_recursive_demotion "a" "b" (by decide)⟩

end PinKv

/-! ## Supporting lemmas for the bitswap behaviour -/

namespace BitswapM

theorem mapGet_put {β : Type} (m : List (Nat × β)) (k : Nat) (v : β) (key : Nat) :
    mapGet (mapPut m k v) key = if k = key then some v else mapGet m key := by
  induction m with
  | nil => simp [mapPut, mapGet]
  | cons kv rest ih =>
    obtain ⟨k1, v1⟩ := kv
    by_cases h1 : k1 = k
    · subst h1
      by_cases h2 : k1 = key
      · subst h2
        simp [mapPut, mapGet]
      · simp [mapPut, mapGet, h2]
    · simp only [mapPut, if_neg h1]
      by_cases h2 : k1 = key
      · subst h2
        simp [mapGet, Ne.symm h1]
      · simp [mapGet, h2, ih]

theorem mapGet_del {β : Type} (m : List (Nat × β)) (k : Nat) (key : Nat) :
    mapGet (mapDel m k) key = if k = key then none else mapGet m key := by
  induction m with
  | nil => simp [mapDel, mapGet]
  | cons kv rest ih =>
    obtain ⟨k1, v1⟩ := kv
    by_cases h1 : k1 = k
    · subst h1
      simp only [mapDel, if_pos rfl]
      by_cases h2 : k1 = key
      · subst h2
        simp [ih]
      · simp [mapGet, h2, ih]
    · simp only [mapDel, if_neg h1]
      by_cases h2 : k1 = key
      · subst h2
        simp [mapGet, Ne.symm h1]
      · simp [mapGet, h2, ih]

theorem mapGet_update {β : Type} (m : List (Nat × β)) (k : Nat) (f : β → β) (key : Nat) :
    mapGet (mapUpdate m k f) key =
      if k = key then (mapGet m key).map f else mapGet m key := by
  induction m with
  | nil => simp [mapUpdate, mapGet]
  | cons kv rest ih =>
    obtain ⟨k1, v1⟩ := kv
    by_cases h1 : k1 = k
    · subst h1
      simp only [mapUpdate, if_pos rfl]
      by_cases h2 : k1 = key
      · subst h2
        simp [mapGet]
      · simp [mapGet, h2, ih]
    · simp only [mapUpdate, if_neg h1]
      by_cases h2 : k1 = key
      · subst h2
        simp [mapGet, Ne.symm h1]
      · simp [mapGet, h1, h2, ih]

theorem mapGet_map {β : Type} (m : List (Nat × β)) (f : β → β) (key : Nat) :
    mapGet (m.map (fun kv => (kv.1, f kv.2))) key = (mapGet m key).map f := by
  induction m with
  | nil => simp [mapGet]
  | cons kv rest ih =>
    obtain ⟨k1, v1⟩ := kv
    by_cases h : k1 = key
    · subst h
      simp [mapGet]
    · simp [mapGet, h, ih]

/-- An update through a function that preserves a projection preserves the
projected view of the map. -/
theorem mapGet_update_proj {β γ : Type} (proj : β → γ) (f : β → β)
    (hf : ∀ b, proj (f b) = proj b) (m : List (Nat × β)) (k key : Nat) :
    (mapGet (mapUpdate m k f) key).map proj = (mapGet m key).map proj := by
  rw [mapGet_update]
  by_cases h : k = key
  · subst h
    cases mapGet m k <;> simp [hf]
  · simp [h]

theorem applyCancels_events (source : PeerId) (cids : List Cid) (s : Bitswap) :
    (s.applyCancels source cids).events =
      s.events ++
        cids.map (fun c => Action.generateEvent (BitswapEvent.receivedCancel source c)) := by
  induction cids generalizing s with
  | nil => simp [Bitswap.applyCancels]
  | cons c cs ih => simp [Bitswap.applyCancels, ih]

theorem applyCancels_wanted (source : PeerId) (cids : List Cid) (s : Bitswap) :
    (s.applyCancels source cids).wanted_blocks = s.wanted_blocks := by
  induction cids generalizing s with
  | nil => rfl
  | cons c cs ih => simp [Bitswap.applyCancels, ih]

/-- Phase 1 never touches any ledger's `sent_want_list`. -/
theorem applyCancels_sent_want (source : PeerId) (cids : List Cid) (s : Bitswap) (p : PeerId) :
    (mapGet (s.applyCancels source cids).connected_peers p).map Ledger.sent_want_list =
      (mapGet s.connected_peers p).map Ledger.sent_want_list := by
  induction cids generalizing s with
  | nil => rfl
  | cons c cs ih =>
    rw [show s.applyCancels source (c :: cs) =
      Bitswap.applyCancels _ source cs from rfl, ih]
    exact mapGet_update_proj Ledger.sent_want_list
      (fun l => { l with received_want_list := mapDel l.received_want_list c })
      (fun l => rfl) s.connected_peers source p

theorem applyWants_events (source : PeerId) (entries : List (Cid × Priority)) (s : Bitswap) :
    (s.applyWants source entries).events =
      s.events ++
        entries.map
          (fun cp => Action.generateEvent (BitswapEvent.receivedWant source cp.1 cp.2)) := by
  induction entries generalizing s with
  | nil => simp [Bitswap.applyWants]
  | cons cp rest ih => simp [Bitswap.applyWants, ih]

theorem applyWants_wanted (source : PeerId) (entries : List (Cid × Priority)) (s : Bitswap) :
    (s.applyWants source entries).wanted_blocks = s.wanted_blocks := by
  induction entries generalizing s with
  | nil => rfl
  | cons cp rest ih => simp [Bitswap.applyWants, ih]

/-- Phase 2 never touches any ledger's `sent_want_list`. -/
theorem applyWants_sent_want (source : PeerId) (entries : List (Cid × Priority)) (s : Bitswap)
    (p : PeerId) :
    (mapGet (s.applyWants source entries).connected_peers p).map Ledger.sent_want_list =
      (mapGet s.connected_peers p).map Ledger.sent_want_list := by
  induction entries generalizing s with
  | nil => rfl
  | cons cp rest ih =>
    rw [show s.applyWants source (cp :: rest) =
      Bitswap.applyWants _ source rest from rfl, ih]
    exact mapGet_update_proj Ledger.sent_want_list
      (fun l => { l with received_want_list := mapPut l.received_want_list cp.1 cp.2 })
      (fun l => rfl) s.connected_peers source p

theorem applyBlocks_events (source : PeerId) (blocks : List Block) (s : Bitswap) :
    (s.applyBlocks source blocks).events =
      s.events ++
        blocks.map (fun b => Action.generateEvent (BitswapEvent.receivedBlock source b)) := by
  induction blocks generalizing s with
  | nil => simp [Bitswap.applyBlocks]
  | cons b rest ih => simp [Bitswap.applyBlocks, ih, Bitswap.cancel_block]

theorem applyBlocks_wanted (source : PeerId) (blocks : List Block) (s : Bitswap) :
    (s.applyBlocks source blocks).wanted_blocks =
      blocks.foldl (fun w b => mapDel w b.cid) s.wanted_blocks := by
  induction blocks generalizing s with
  | nil => rfl
  | cons b rest ih => simp [Bitswap.applyBlocks, ih, Bitswap.cancel_block]

/-! ## Bitswap claims: inbound processing, connect, unknown peers -/

/-- C4: an inbound `Rx` message from a connected peer is processed in the
strict order cancels, then wants, then blocks: the handler is the
composition of the three phases, where the wants are filtered against the
snapshot of the local wantlist taken at entry (filtered entries produce no
event and no insertion); the emitted events are the cancel events, then the
want events, then the block events, appended in that order; and every
received block's CID is removed from `wanted_blocks` (by `cancel_block`,
which also purges it from every ledger) as part of phase 3. -/
theorem rx_processing_order (s : Bitswap) (source : PeerId) (msg : Message) (l : Ledger)
    (h : mapGet s.connected_peers source = some l) :
    s.on_connection_handler_event source (MessageWrapper.rx msg) =
      ((s.applyCancels source msg.cancel).applyWants source
          (msg.want.filter
            (fun cp => ¬ s.local_wantlist.any (fun wp => wp.1 = cp.1)))).applyBlocks
        source msg.blocks ∧
    (s.on_connection_handler_event source (MessageWrapper.rx msg)).events =
      s.events
        ++ msg.cancel.map (fun c => Action.generateEvent (BitswapEvent.receivedCancel source c))
        ++ (msg.want.filter
              (fun cp => ¬ s.local_wantlist.any (fun wp => wp.1 = cp.1))).map
             (fun cp => Action.generateEvent (BitswapEvent.receivedWant source cp.1 cp.2))
        ++ msg.blocks.map
             (fun b => Action.generateEvent (BitswapEvent.receivedBlock source b)) ∧
    (s.on_connection_handler_event source (MessageWrapper.rx msg)).wanted_blocks =
      msg.blocks.foldl (fun w b => mapDel w b.cid) s.wanted_blocks := by
  have h1 : s.on_connection_handler_event source (MessageWrapper.rx msg) =
      ((s.applyCancels source msg.cancel).applyWants source
          (msg.want.filter
            (fun cp => ¬ s.local_wantlist.any (fun wp => wp.1 = cp.1)))).applyBlocks
        source msg.blocks := by
    simp [Bitswap.on_connection_handler_event, h]
  refine ⟨h1, ?_, ?_⟩
  · rw [h1, applyBlocks_events, applyWants_events, applyCancels_events]
  · rw [h1, applyBlocks_wanted, applyWants_wanted, applyCancels_wanted]

/-- Witness for C4: a connected peer, a message with one want, one cancel
and one block, on an engine with an empty local wantlist. -/
theorem rx_processing_order_witness :
    (Bitswap.on_connection_handler_event ⟨[], [], [(1, Ledger.new)], [], []⟩ 1
        (MessageWrapper.rx ⟨[(5, 2)], [6], [⟨7⟩]⟩)).wanted_blocks =
      [(⟨7⟩ : Block)].foldl (fun w b => mapDel w b.cid) [] :=
  (rx_processing_order ⟨[], [], [(1, Ledger.new)], [], []⟩ 1 ⟨[(5, 2)], [6], [⟨7⟩]⟩
    Ledger.new rfl).2.2

/-- C9: `connect(p)`, when `p` is not yet a dial target, enqueues exactly one
Dial event conditioned on the peer being currently disconnected; a second
`connect(p)` with no intervening `ConnectionEstablished` is a no-op, so two
or more calls enqueue exactly one Dial. -/
theorem connect_idempotent (s : Bitswap) (p : PeerId)
    (h : s.target_peers.any (fun q => q = p) = false) :
    (s.connect p).events = s.events ++ [Action.dial p DialCond.disconnected] ∧
    (s.connect p).connect p = s.connect p := by
  have hc : s.connect p =
      { s with
        target_peers := s.target_peers ++ [p]
        events := s.events ++ [Action.dial p DialCond.disconnected] } := by
    simp [Bitswap.connect, h]
  refine ⟨by rw [hc], ?_⟩
  rw [hc]
  simp [Bitswap.connect]

/-- Witness for C9 at a fresh engine and peer 0. -/
theorem connect_idempotent_witness :
    (Bitswap.init.connect 0).events =
      Bitswap.init.events ++ [Action.dial 0 DialCond.disconnected] ∧
    ((Bitswap.init.connect 0).connect 0) = Bitswap.init.connect 0 :=
  connect_idempotent Bitswap.init 0 rfl

/-- C10: an `Rx` message from a peer with no ledger is dropped without any
state change or event, and a `Tx` acknowledgement from any peer — with or
without a ledger — leaves the engine unchanged. -/
theorem unknown_peer_dropped (s : Bitswap) (p : PeerId) (msg : Message)
    (h : mapGet s.connected_peers p = none) :
    s.on_connection_handler_event p (MessageWrapper.rx msg) = s ∧
    ∀ q : PeerId, s.on_connection_handler_event q MessageWrapper.tx = s := by
  refine ⟨?_, fun q => rfl⟩
  simp [Bitswap.on_connection_handler_event, h]

/-- Witness for C10: an engine with peer 1 connected; an `Rx` from the
unconnected peer 0 and a `Tx` from the connected peer 1 both leave it
unchanged. -/
theorem unknown_peer_dropped_witness :
    Bitswap.on_connection_handler_event ⟨[], [], [(1, Ledger.new)], [], []⟩ 0
        (MessageWrapper.rx ⟨[(1, 1)], [2], [⟨3⟩]⟩) = ⟨[], [], [(1, Ledger.new)], [], []⟩ ∧
    Bitswap.on_connection_handler_event ⟨[], [], [(1, Ledger.new)], [], []⟩ 1
        MessageWrapper.tx = ⟨[], [], [(1, Ledger.new)], [], []⟩ :=
  ⟨(unknown_peer_dropped ⟨[], [], [(1, Ledger.new)], [], []⟩ 0 ⟨[(1, 1)], [2], [⟨3⟩]⟩ rfl).1,
   (unknown_peer_dropped ⟨[], [], [(1, Ledger.new)], [], []⟩ 0 ⟨[(1, 1)], [2], [⟨3⟩]⟩ rfl).2 1⟩

/-- C5: one `poll` performs exactly one of the steps, in order: (1) a queued
event is popped and returned; otherwise (2) the `dont_have` channel is
drained through `dont_have_for_peer` and (3) the `ready_blocks` channel
through `send_block`; then (4) the first connected peer (in iteration order)
whose `ledger.send()` is non-`None` has its message returned in a
NotifyHandler action after its `sent_blocks` statistic grows by the message's
block count; (5) with no queued event and no sendable ledger, `poll` returns
Pending. The last two conjuncts pin down "first": `pollSends` skips exactly
the peers whose `send()` is `None`, and finds nobody iff every ledger's
`send()` is `None`. -/
theorem poll_spec (s : Bitswap) (dh : List (PeerId × Cid)) (rb : List (PeerId × Block)) :
    (∀ e rest, s.events = e :: rest →
        s.poll dh rb = (PollResult.ready e, { s with events := rest })) ∧
    (s.events = [] →
      (∀ p msg conn1,
          pollSends (rb.foldl (fun acc pb => acc.send_block pb.1 pb.2)
              (dh.foldl (fun acc pc => acc.dont_have_for_peer pc.1 pc.2) s)).connected_peers =
            some (p, msg, conn1) →
          s.poll dh rb =
            (PollResult.ready (Action.notifyHandler p msg),
             { rb.foldl (fun acc pb => acc.send_block pb.1 pb.2)
                 (dh.foldl (fun acc pc => acc.dont_have_for_peer pc.1 pc.2) s) with
               connected_peers := conn1
               stats := mapUpdate
                 (rb.foldl (fun acc pb => acc.send_block pb.1 pb.2)
                   (dh.foldl (fun acc pc => acc.dont_have_for_peer pc.1 pc.2) s)).stats p
                 (fun st => ⟨st.sent_blocks + msg.blocks.length⟩) })) ∧
      (pollSends (rb.foldl (fun acc pb => acc.send_block pb.1 pb.2)
            (dh.foldl (fun acc pc => acc.dont_have_for_peer pc.1 pc.2) s)).connected_peers =
          none →
        s.poll dh rb =
          (PollResult.pending,
           rb.foldl (fun acc pb => acc.send_block pb.1 pb.2)
             (dh.foldl (fun acc pc => acc.dont_have_for_peer pc.1 pc.2) s)))) ∧
    (∀ (pre post : List (PeerId × Ledger)) (p : PeerId) (l l1 : Ledger) (msg : Message),
        (∀ q m, (q, m) ∈ pre → m.send = none) → l.send = some (msg, l1) →
        pollSends (pre ++ (p, l) :: post) = some (p, msg, pre ++ (p, l1) :: post)) ∧
    (∀ conn : List (PeerId × Ledger),
        pollSends conn = none ↔ ∀ q m, (q, m) ∈ conn → m.send = none) := by
  refine ⟨?_, ?_, ?_, ?_⟩
  · intro e rest h
    simp [Bitswap.poll, h]
  · intro he
    refine ⟨?_, ?_⟩
    · intro p msg conn1 hsend
      simp [Bitswap.poll, he, hsend]
    · intro hsend
      simp [Bitswap.poll, he, hsend]
  · intro pre post p l l1 msg hpre hl
    induction pre with
    | nil => simp [pollSends, hl]
    | cons qm rest ih =>
      obtain ⟨q, m⟩ := qm
      have hm : m.send = none := hpre q m (by simp)
      have ihr : pollSends (rest ++ (p, l) :: post) = some (p, msg, rest ++ (p, l1) :: post) :=
        ih (fun q1 m1 hmem => hpre q1 m1 (by simp [hmem]))
      simp [pollSends, hm, ihr]
  · intro conn
    induction conn with
    | nil => simp [pollSends]
    | cons qm rest ih =>
      obtain ⟨q, m⟩ := qm
      cases hm : m.send with
      | some r =>
        obtain ⟨msg, l1⟩ := r
        simp only [pollSends, hm]
        constructor
        · intro h
          exact absurd h (by simp)
        · intro hall
          have h1 := hall q m (by simp)
          rw [hm] at h1
          exact absurd h1 (by simp)
      | none =>
        simp only [pollSends, hm]
        cases hrest : pollSends rest with
        | some r =>
          obtain ⟨q1, msg1, rest1⟩ := r
          constructor
          · intro h
            simp at h
          · intro hall
            have h2 := ih.mpr (fun q2 m2 hmem => hall q2 m2 (by simp [hmem]))
            rw [hrest] at h2
            exact absurd h2 (by simp)
        | none =>
          constructor
          · intro _ q1 m1 hmem
            rcases List.mem_cons.mp hmem with heq | hmem2
            · rw [show m1 = m from (Prod.mk.injEq _ _ _ _ ▸ heq).2]
              exact hm
            · exact (ih.mp hrest) q1 m1 hmem2
          · intro _
            rfl

/-- Witness for C5: a fresh engine with empty channels polls to Pending. -/
theorem poll_spec_witness :
    Bitswap.poll Bitswap.init [] [] = (PollResult.pending, Bitswap.init) :=
  ((poll_spec Bitswap.init [] []).2.1 rfl).2 rfl

/-! ## The global-wantlist invariant (C1) -/

theorem mapPut_idem {β : Type} (m : List (Nat × β)) (k : Nat) (v : β) :
    mapPut (mapPut m k v) k v = mapPut m k v := by
  induction m with
  | nil => simp [mapPut]
  | cons kv rest ih =>
    obtain ⟨k1, v1⟩ := kv
    by_cases h : k1 = k
    · subst h
      simp [mapPut]
    · simp [mapPut, h, ih]

theorem filter_idem {α : Type} (p : α → Bool) (l : List α) :
    (l.filter p).filter p = l.filter p := by
  induction l with
  | nil => rfl
  | cons a rest ih =>
    by_cases h : p a
    · simp [List.filter_cons, h, ih]
    · simp [List.filter_cons, h, ih]

theorem ledger_want_block_get (l : Ledger) (cid : Cid) (prio : Priority) (c : Cid) :
    mapGet (l.want_block cid prio).sent_want_list c =
      if cid = c then some prio else mapGet l.sent_want_list c := by
  rw [Ledger.want_block]
  exact mapGet_put _ _ _ _

theorem ledger_want_block_idem (l : Ledger) (c : Cid) (prio : Priority) :
    (l.want_block c prio).want_block c prio = l.want_block c prio := by
  simp [Ledger.want_block, mapPut_idem, filter_idem]

/-- `Ledger.cancel_block` does not disturb the want entry of another CID. -/
theorem cancel_block_sent_want_other (l : Ledger) (cid c : Cid) (h : cid ≠ c) :
    mapGet (l.cancel_block cid).sent_want_list c = mapGet l.sent_want_list c := by
  rw [Ledger.cancel_block]
  split
  · simp [mapGet_del, h]
  · rfl

theorem want_invariant_cancel (s : Bitswap) (c : Cid) (hs : WantInvariant s) :
    WantInvariant (s.cancel_block c) := by
  intro p l hp c1 prio h1
  simp only [Bitswap.cancel_block] at hp h1
  rw [mapGet_map s.connected_peers (fun ld => ld.cancel_block c) p] at hp
  rw [mapGet_del] at h1
  by_cases hc : c = c1
  · rw [if_pos hc] at h1
    exact absurd h1 (by simp)
  · rw [if_neg hc] at h1
    cases hml : mapGet s.connected_peers p with
    | none =>
      rw [hml] at hp
      simp at hp
    | some l0 =>
      rw [hml] at hp
      simp at hp
      rw [← hp, cancel_block_sent_want_other l0 c c1 hc]
      exact hs p l0 hml c1 prio h1

theorem want_invariant_want (s : Bitswap) (c : Cid) (prio : Priority) (hs : WantInvariant s) :
    WantInvariant (s.want_block c prio) := by
  intro p l hp c1 prio1 h1
  simp only [Bitswap.want_block] at hp h1
  rw [mapGet_map s.connected_peers (fun ld => ld.want_block c prio) p] at hp
  rw [mapGet_put] at h1
  cases hml : mapGet s.connected_peers p with
  | none =>
    rw [hml] at hp
    simp at hp
  | some l0 =>
    rw [hml] at hp
    simp at hp
    rw [← hp, ledger_want_block_get]
    by_cases hc : c = c1
    · rw [if_pos hc]
      rw [if_pos hc] at h1
      exact h1
    · rw [if_neg hc]
      rw [if_neg hc] at h1
      exact hs p l0 hml c1 prio1 h1

/-- Unfolding a fold of idempotent single-key updates over a peer list. -/
theorem mapGet_fold_update {β : Type} (f : β → β) (hf : ∀ b, f (f b) = f b)
    (peers : List Nat) (m : List (Nat × β)) (p : Nat) (v : β)
    (h : mapGet (peers.foldl (fun acc q => mapUpdate acc q f) m) p = some v) :
    (mapGet m p = some v ∧ p ∉ peers) ∨
      (∃ v0, mapGet m p = some v0 ∧ v = f v0 ∧ p ∈ peers) := by
  induction peers generalizing m with
  | nil =>
    left
    exact ⟨h, by simp⟩
  | cons q rest ih =>
    rcases ih (mapUpdate m q f) h with ⟨hg, hnp⟩ | ⟨v0, hg, hv, hmem⟩
    · rw [mapGet_update] at hg
      by_cases hq : q = p
      · rw [if_pos hq] at hg
        cases hm0 : mapGet m p with
        | none =>
          rw [hm0] at hg
          simp at hg
        | some v00 =>
          rw [hm0] at hg
          simp at hg
          exact Or.inr ⟨v00, rfl, hg.symm, by simp [hq]⟩
      · rw [if_neg hq] at hg
        refine Or.inl ⟨hg, ?_⟩
        simp [List.mem_cons, hnp]
        intro heq
        exact hq heq.symm
    · rw [mapGet_update] at hg
      by_cases hq : q = p
      · rw [if_pos hq] at hg
        cases hm0 : mapGet m p with
        | none =>
          rw [hm0] at hg
          simp at hg
        | some v00 =>
          rw [hm0] at hg
          simp at hg
          refine Or.inr ⟨v00, rfl, ?_, by simp [hq]⟩
          rw [hv, ← hg, hf]
      · rw [if_neg hq] at hg
        exact Or.inr ⟨v0, hg, hv, by simp [hmem]⟩

theorem want_invariant_from_peers (s : Bitswap) (c : Cid) (prio : Priority)
    (ps : List PeerId) (hs : WantInvariant s)
    (hcov : ∀ p, (mapGet s.connected_peers p).isSome → p ∈ ps) :
    WantInvariant (s.want_block_from_peers c prio ps) := by
  intro p l hp c1 prio1 h1
  simp only [Bitswap.want_block_from_peers] at hp h1
  rw [mapGet_put] at h1
  rcases mapGet_fold_update (fun ld => ld.want_block c prio)
      (fun ld => ledger_want_block_idem ld c prio) ps s.connected_peers p l hp with
    ⟨hg, hnp⟩ | ⟨l0, hg, hl, _⟩
  · exact absurd (hcov p (by simp [hg])) hnp
  · subst hl
    rw [ledger_want_block_get]
    by_cases hc : c = c1
    · rw [if_pos hc]
      rw [if_pos hc] at h1
      exact h1
    · rw [if_neg hc]
      rw [if_neg hc] at h1
      exact hs p l0 hg c1 prio1 h1

theorem send_want_list_wanted (s : Bitswap) (p : PeerId) :
    (s.send_want_list p).wanted_blocks = s.wanted_blocks := by
  rw [Bitswap.send_want_list]
  split <;> rfl

theorem want_invariant_conn_est (s : Bitswap) (p : PeerId)
    (hw : s.wanted_blocks = []) : WantInvariant (s.connection_established p) := by
  intro q l hq c prio hc
  rw [Bitswap.connection_established, send_want_list_wanted] at hc
  simp only [hw] at hc
  simp [mapGet] at hc

theorem want_invariant_conn_closed (s : Bitswap) (p : PeerId) (hs : WantInvariant s) :
    WantInvariant (s.connection_closed p) := by
  intro q l hq c prio hc
  simp only [Bitswap.connection_closed] at hq
  rw [mapGet_del] at hq
  by_cases h : p = q
  · rw [if_pos h] at hq
    simp at hq
  · rw [if_neg h] at hq
    exact hs q l hq c prio hc

theorem want_invariant_connect (s : Bitswap) (p : PeerId) (hs : WantInvariant s) :
    WantInvariant (s.connect p) := by
  have h1 : (s.connect p).connected_peers = s.connected_peers := by
    rw [Bitswap.connect]
    split <;> rfl
  have h2 : (s.connect p).wanted_blocks = s.wanted_blocks := by
    rw [Bitswap.connect]
    split <;> rfl
  intro q l hq c prio hc
  rw [h1] at hq
  rw [h2] at hc
  exact hs q l hq c prio hc

/-- A state whose per-peer `sent_want_list` views and wantlist agree with an
invariant-satisfying state satisfies the invariant. -/
theorem want_invariant_of_proj (s1 s : Bitswap)
    (hconn : ∀ p, (mapGet s1.connected_peers p).map Ledger.sent_want_list =
      (mapGet s.connected_peers p).map Ledger.sent_want_list)
    (hw : s1.wanted_blocks = s.wanted_blocks) (hs : WantInvariant s) :
    WantInvariant s1 := by
  intro p l hp c prio hc
  have h1 := hconn p
  rw [hp] at h1
  cases hml : mapGet s.connected_peers p with
  | none =>
    rw [hml] at h1
    simp at h1
  | some l0 =>
    rw [hml] at h1
    simp at h1
    rw [h1]
    rw [hw] at hc
    exact hs p l0 hml c prio hc

theorem want_invariant_applyBlocks (p : PeerId) (bs : List Block) (s : Bitswap)
    (hs : WantInvariant s) : WantInvariant (s.applyBlocks p bs) := by
  induction bs generalizing s with
  | nil => exact hs
  | cons b rest ih =>
    apply ih
    intro q l hq c prio hc
    exact want_invariant_cancel s b.cid hs q l hq c prio hc

theorem want_invariant_handler (s : Bitswap) (p : PeerId) (w : MessageWrapper)
    (hs : WantInvariant s) : WantInvariant (s.on_connection_handler_event p w) := by
  cases w with
  | tx => exact hs
  | rx msg =>
    rw [Bitswap.on_connection_handler_event]
    cases hml : mapGet s.connected_peers p with
    | none =>
      simp only [hml]
      exact hs
    | some l0 =>
      simp only [hml]
      apply want_invariant_applyBlocks
      apply want_invariant_of_proj _ s
      · intro q
        rw [applyWants_sent_want, applyCancels_sent_want]
      · rw [applyWants_wanted, applyCancels_wanted]
      · exact hs

/-- C1, counterexample: after establishing connections to peers 1 and 2 and
then `want_block_from_peers(7, 1, [1])`, CID 7 is in `wanted_blocks` with
priority 1, yet peer 2's ledger has an empty `sent_want_list` — the invariant
as claimed fails on a reachable state built only from claim-listed events. -/
theorem want_invariant_cex :
    mapGet (((Bitswap.init.connection_established 1).connection_established 2).want_block_from_peers
        7 1 [1]).wanted_blocks 7 = some 1 ∧
    (mapGet (((Bitswap.init.connection_established 1).connection_established 2).want_block_from_peers
        7 1 [1]).connected_peers 2).map
      (fun l => mapGet l.sent_want_list 7) = some none := by
  exact ⟨rfl, rfl⟩

/-- C1 (amended): the invariant — every CID in `wanted_blocks` is in every
connected ledger's `sent_want_list` with the same priority — holds initially
and is preserved by every engine event, provided `ConnectionEstablished`
only happens while `wanted_blocks` is empty and `want_block_from_peers`
lists every connected peer; `connect`, `want_block`, `cancel_block`,
`ConnectionClosed` and inbound messages (which remove received blocks from
the wantlist and from every ledger via `cancel_block`) preserve it
unconditionally. -/
theorem want_invariant_preserved :
    WantInvariant Bitswap.init ∧
    ∀ s e, WantInvariant s → eventOk s e → WantInvariant (stepEvent s e) := by
  constructor
  · intro p l hp c prio hc
    simp [Bitswap.init, mapGet] at hp
  · intro s e hs hok
    cases e with
    | connectEv p => exact want_invariant_connect s p hs
    | connectionEstablished p => exact want_invariant_conn_est s p hok
    | connectionClosed p => exact want_invariant_conn_closed s p hs
    | wantBlock c prio => exact want_invariant_want s c prio hs
    | wantBlockFromPeers c prio ps => exact want_invariant_from_peers s c prio ps hs hok
    | cancelBlock c => exact want_invariant_cancel s c hs
    | handlerEvent p w => exact want_invariant_handler s p w hs

/-- Witness for the amended C1: the invariant holds after a `want_block` on
the fresh engine. -/
theorem want_invariant_preserved_witness :
    WantInvariant (stepEvent Bitswap.init (Event.wantBlock 7 1)) :=
  want_invariant_preserved.2 Bitswap.init (Event.wantBlock 7 1)
    want_invariant_preserved.1 trivial

end BitswapM

/-! ## Supporting lemmas for the UnixFS get stream -/

namespace UnixFsGet

/-- A run always yields at least one status. -/
theorem runGet_ne (script : List WalkOutcome) :
    ∀ (w : Nat) (t : Option Nat) (sink : List Nat), (runGet script w t sink).1 ≠ [] := by
  induction script with
  | nil =>
    intro w t sink
    simp [runGet]
  | cons step rest ih =>
    intro w t sink
    cases step with
    | fetchErr => simp [runGet]
    | walkErr => simp [runGet]
    | bucket => exact ih w t sink
    | directory => exact ih w t sink
    | symlink => exact ih w t sink
    | file isFirst isLast seg size wr =>
      cases seg with
      | nil =>
        cases isFirst <;> cases isLast <;> simp [runGet] <;>
          exact fun h => ih _ _ _ h
      | cons b bs =>
        cases wr with
        | writeFail => cases isFirst <;> simp [runGet]
        | syncFail => cases isFirst <;> simp [runGet]
        | ok => cases isFirst <;> cases isLast <;> simp [runGet]

theorem terminal_once_cons_progress (w1 : Nat) (t1 : Option Nat) (l : List UnixfsStatus)
    (hl : l ≠ []) :
    terminal_once (UnixfsStatus.progress w1 t1 :: l) = terminal_once l := by
  cases l with
  | nil => exact absurd rfl hl
  | cons a as => simp [terminal_once, isTerminal]

/-- The written values of a run are non-decreasing from the starting value. -/
theorem runGet_mono (script : List WalkOutcome) :
    ∀ (w : Nat) (t : Option Nat) (sink : List Nat),
      monoFrom w (runGet script w t sink).1 = true := by
  induction script with
  | nil =>
    intro w t sink
    simp [runGet, monoFrom, statusWritten]
  | cons step rest ih =>
    intro w t sink
    cases step with
    | fetchErr => simp [runGet, monoFrom, statusWritten]
    | walkErr => simp [runGet, monoFrom, statusWritten]
    | bucket => exact ih w t sink
    | directory => exact ih w t sink
    | symlink => exact ih w t sink
    | file isFirst isLast seg size wr =>
      cases seg with
      | nil =>
        cases isFirst <;> cases isLast <;>
          simp [runGet, monoFrom, statusWritten, ih]
      | cons b bs =>
        cases wr with
        | writeFail => cases isFirst <;> simp [runGet, monoFrom, statusWritten]
        | syncFail => cases isFirst <;> simp [runGet, monoFrom, statusWritten]
        | ok =>
          cases isFirst <;> cases isLast <;>
            simp [runGet, monoFrom, statusWritten, ih]

/-- Every terminal status of a run carries a `written` equal to the length
of the final sink, provided `written` agreed with the sink at the start. -/
theorem runGet_last_sink (script : List WalkOutcome) :
    ∀ (w : Nat) (t : Option Nat) (sink : List Nat), w = sink.length →
      ∀ st ∈ (runGet script w t sink).1, isTerminal st = true →
        statusWritten st = (runGet script w t sink).2.length := by
  induction script with
  | nil =>
    intro w t sink hw st hmem hterm
    simp [runGet] at hmem
    subst hmem
    simpa [statusWritten] using hw
  | cons step rest ih =>
    intro w t sink hw st hmem hterm
    cases step with
    | fetchErr =>
      simp [runGet] at hmem ⊢
      subst hmem
      simpa [statusWritten] using hw
    | walkErr =>
      simp [runGet] at hmem ⊢
      subst hmem
      simpa [statusWritten] using hw
    | bucket => exact ih w t sink hw st hmem hterm
    | directory => exact ih w t sink hw st hmem hterm
    | symlink => exact ih w t sink hw st hmem hterm
    | file isFirst isLast seg size wr =>
      cases seg with
      | nil =>
        cases isFirst <;> cases isLast <;>
          simp only [runGet, List.nil_append, List.append_nil, List.cons_append,
            List.singleton_append] at hmem ⊢ <;>
        first
          | exact ih _ _ _ hw st hmem hterm
          | (rcases List.mem_cons.mp hmem with rfl | hmem
             · simp [isTerminal] at hterm
             · first
                 | exact ih _ _ _ hw st hmem hterm
                 | (rcases List.mem_cons.mp hmem with rfl | hmem
                    · simp [isTerminal] at hterm
                    · exact ih _ _ _ hw st hmem hterm))
      | cons b bs =>
        cases wr with
        | writeFail =>
          cases isFirst <;>
            simp only [runGet, List.nil_append, List.append_nil, List.cons_append,
              List.singleton_append] at hmem ⊢ <;>
          first
            | (rcases List.mem_cons.mp hmem with rfl | hmem
               · simpa [statusWritten] using hw
               · simp at hmem)
            | (rcases List.mem_cons.mp hmem with rfl | hmem
               · simp [isTerminal] at hterm
               · rcases List.mem_cons.mp hmem with rfl | hmem
                 · simpa [statusWritten] using hw
                 · simp at hmem)
        | syncFail =>
          cases isFirst <;>
            simp only [runGet, List.nil_append, List.append_nil, List.cons_append,
              List.singleton_append] at hmem ⊢ <;>
          first
            | (rcases List.mem_cons.mp hmem with rfl | hmem
               · simpa [statusWritten] using hw
               · simp at hmem)
            | (rcases List.mem_cons.mp hmem with rfl | hmem
               · simp [isTerminal] at hterm
               · rcases List.mem_cons.mp hmem with rfl | hmem
                 · simpa [statusWritten] using hw
                 · simp at hmem)
        | ok =>
          have hw1 : w + (b :: bs).length = (sink ++ b :: bs).length := by
            simp [hw]
          cases isFirst <;> cases isLast <;>
            simp only [runGet, List.nil_append, List.append_nil, List.cons_append,
              List.singleton_append] at hmem ⊢ <;>
          first
            | (rcases List.mem_cons.mp hmem with rfl | hmem
               · simp [isTerminal] at hterm
               · first
                   | exact ih _ _ _ hw1 st hmem hterm
                   | (rcases List.mem_cons.mp hmem with rfl | hmem
                      · simp [isTerminal] at hterm
                      · first
                          | exact ih _ _ _ hw1 st hmem hterm
                          | (rcases List.mem_cons.mp hmem with rfl | hmem
                             · simp [isTerminal] at hterm
                             · exact ih _ _ _ hw1 st hmem hterm)))

/-- When no first segment of any file appears in the script, `total_size`
is never reassigned: every status carries the starting value. -/
theorem runGet_total_const (script : List WalkOutcome) :
    ∀ (w : Nat) (t : Option Nat) (sink : List Nat), countFirstFile script = 0 →
      ∀ st ∈ (runGet script w t sink).1, statusTotal st = t := by
  induction script with
  | nil =>
    intro w t sink hc st hmem
    simp [runGet] at hmem
    subst hmem
    rfl
  | cons step rest ih =>
    intro w t sink hc st hmem
    cases step with
    | fetchErr =>
      simp [runGet] at hmem
      subst hmem
      rfl
    | walkErr =>
      simp [runGet] at hmem
      subst hmem
      rfl
    | bucket => exact ih w t sink (by simpa [countFirstFile] using hc) st hmem
    | directory => exact ih w t sink (by simpa [countFirstFile] using hc) st hmem
    | symlink => exact ih w t sink (by simpa [countFirstFile] using hc) st hmem
    | file isFirst isLast seg size wr =>
      cases isFirst with
      | true => simp [countFirstFile] at hc
      | false =>
        have hc2 : countFirstFile rest = 0 := by simpa [countFirstFile] using hc
        cases seg with
        | nil =>
          cases isLast <;>
            simp only [runGet, List.nil_append, List.append_nil, List.cons_append,
              List.singleton_append] at hmem <;>
          first
            | exact ih _ _ _ hc2 st hmem
            | (rcases List.mem_cons.mp hmem with rfl | hmem
               · rfl
               · exact ih _ _ _ hc2 st hmem)
        | cons b bs =>
          cases wr with
          | writeFail =>
            simp [runGet] at hmem
            subst hmem
            rfl
          | syncFail =>
            simp [runGet] at hmem
            subst hmem
            rfl
          | ok =>
            cases isLast <;>
              simp only [runGet, List.nil_append, List.append_nil, List.cons_append,
                List.singleton_append] at hmem <;>
            first
              | (rcases List.mem_cons.mp hmem with rfl | hmem
                 · rfl
                 · exact ih _ _ _ hc2 st hmem)
              | (rcases List.mem_cons.mp hmem with rfl | hmem
                 · rfl
                 · rcases List.mem_cons.mp hmem with rfl | hmem
                   · rfl
                   · exact ih _ _ _ hc2 st hmem)

theorem total_size_stable_cons_some (u : Nat) (L : List (Option Nat))
    (h : ∀ o ∈ L, o = some u) : total_size_stable (some u :: L) = true := by
  simp only [total_size_stable, List.all_eq_true]
  intro o ho
  simp [h o ho]

theorem all_total_map (u : Nat) (l : List UnixfsStatus)
    (h : ∀ st ∈ l, statusTotal st = some u) :
    ∀ o ∈ l.map statusTotal, o = some u := by
  intro o ho
  rcases List.mem_map.mp ho with ⟨st, hst, rfl⟩
  exact h st hst

/-- Starting from `total_size = none`, a script with at most one first file
segment yields a stream whose `total_size`, once `some`, never changes. -/
theorem runGet_total_stable (script : List WalkOutcome) :
    ∀ (w : Nat) (sink : List Nat), countFirstFile script ≤ 1 →
      total_size_stable ((runGet script w none sink).1.map statusTotal) = true := by
  induction script with
  | nil =>
    intro w sink hc
    simp [runGet, total_size_stable, statusTotal]
  | cons step rest ih =>
    intro w sink hc
    cases step with
    | fetchErr => simp [runGet, total_size_stable, statusTotal]
    | walkErr => simp [runGet, total_size_stable, statusTotal]
    | bucket => exact ih w sink (by simpa [countFirstFile] using hc)
    | directory => exact ih w sink (by simpa [countFirstFile] using hc)
    | symlink => exact ih w sink (by simpa [countFirstFile] using hc)
    | file isFirst isLast seg size wr =>
      cases isFirst with
      | false =>
        have hc2 : countFirstFile rest ≤ 1 := by simpa [countFirstFile] using hc
        cases seg with
        | nil =>
          cases isLast <;>
            simp only [runGet, List.nil_append, List.append_nil, List.cons_append,
              List.singleton_append, List.map_cons] <;>
          exact ih _ _ hc2
        | cons b bs =>
          cases wr with
          | writeFail => simp [runGet, total_size_stable, statusTotal]
          | syncFail => simp [runGet, total_size_stable, statusTotal]
          | ok =>
            cases isLast <;>
              simp only [runGet, List.nil_append, List.append_nil, List.cons_append,
                List.singleton_append, List.map_cons] <;>
            simpa [total_size_stable, statusTotal] using ih _ _ hc2
      | true =>
        have hc0 : countFirstFile rest = 0 := by
          simp [countFirstFile] at hc
          omega
        have hconst := runGet_total_const rest
        cases seg with
        | nil =>
          cases isLast <;>
            simp only [runGet, List.nil_append, List.append_nil, List.cons_append,
              List.singleton_append, List.map_cons] <;>
          · apply total_size_stable_cons_some
            intro o ho
            first
              | (rcases List.mem_map.mp ho with ⟨st, hst, rfl⟩
                 exact hconst _ _ _ hc0 st hst)
              | (rcases List.mem_cons.mp ho with rfl | ho
                 · rfl
                 · rcases List.mem_map.mp ho with ⟨st, hst, rfl⟩
                   exact hconst _ _ _ hc0 st hst)
        | cons b bs =>
          cases wr with
          | writeFail => simp [runGet, total_size_stable, statusTotal]
          | syncFail => simp [runGet, total_size_stable, statusTotal]
          | ok =>
            cases isLast <;>
              simp only [runGet, List.nil_append, List.append_nil, List.cons_append,
                List.singleton_append, List.map_cons] <;>
            · apply total_size_stable_cons_some
              intro o ho
              rcases List.mem_cons.mp ho with rfl | ho
              · rfl
              · first
                  | (rcases List.mem_map.mp ho with ⟨st, hst, rfl⟩
                     exact hconst _ _ _ hc0 st hst)
                  | (rcases List.mem_cons.mp ho with rfl | ho
                     · rfl
                     · rcases List.mem_map.mp ho with ⟨st, hst, rfl⟩
                       exact hconst _ _ _ hc0 st hst)

/-- A run yields exactly one terminal status, as its last item. -/
theorem runGet_terminal_once (script : List WalkOutcome) :
    ∀ (w : Nat) (t : Option Nat) (sink : List Nat),
      terminal_once (runGet script w t sink).1 = true := by
  induction script with
  | nil =>
    intro w t sink
    simp [runGet, terminal_once, isTerminal]
  | cons step rest ih =>
    intro w t sink
    cases step with
    | fetchErr => simp [runGet, terminal_once, isTerminal]
    | walkErr => simp [runGet, terminal_once, isTerminal]
    | bucket => exact ih w t sink
    | directory => exact ih w t sink
    | symlink => exact ih w t sink
    | file isFirst isLast seg size wr =>
      cases seg with
      | nil =>
        cases isFirst <;> cases isLast <;> simp [runGet] <;>
        first
          | exact ih _ _ _
          | (rw [terminal_once_cons_progress _ _ _ (runGet_ne rest _ _ _)]
             exact ih _ _ _)
          | (rw [terminal_once_cons_progress _ _ _ (by simp),
               terminal_once_cons_progress _ _ _ (runGet_ne rest _ _ _)]
             exact ih _ _ _)
      | cons b bs =>
        cases wr with
        | writeFail =>
          cases isFirst <;> simp [runGet, terminal_once, isTerminal]
        | syncFail =>
          cases isFirst <;> simp [runGet, terminal_once, isTerminal]
        | ok =>
          cases isFirst <;> cases isLast <;> simp [runGet] <;>
          first
            | (rw [terminal_once_cons_progress _ _ _ (runGet_ne rest _ _ _)]
               exact ih _ _ _)
            | (rw [terminal_once_cons_progress _ _ _ (by simp),
                 terminal_once_cons_progress _ _ _ (runGet_ne rest _ _ _)]
               exact ih _ _ _)
            | (rw [terminal_once_cons_progress _ _ _ (by simp),
                 terminal_once_cons_progress _ _ _ (by simp),
                 terminal_once_cons_progress _ _ _ (runGet_ne rest _ _ _)]
               exact ih _ _ _)

/-- Whenever the `written` value carried by a status exceeds the one before
it, that status is a `ProgressStatus`: every advance of `written` is
announced by a progress event. -/
theorem runGet_progress_flag (script : List WalkOutcome) :
    ∀ (w : Nat) (t : Option Nat) (sink : List Nat),
      progress_on_advance w (runGet script w t sink).1 = true := by
  induction script with
  | nil =>
    intro w t sink
    simp [runGet, progress_on_advance, statusWritten, isProgress]
  | cons step rest ih =>
    intro w t sink
    cases step with
    | fetchErr => simp [runGet, progress_on_advance, statusWritten, isProgress]
    | walkErr => simp [runGet, progress_on_advance, statusWritten, isProgress]
    | bucket => exact ih w t sink
    | directory => exact ih w t sink
    | symlink => exact ih w t sink
    | file isFirst isLast seg size wr =>
      cases seg with
      | nil =>
        cases isFirst <;> cases isLast <;>
          simp [runGet, progress_on_advance, statusWritten, isProgress, ih]
      | cons b bs =>
        cases wr with
        | writeFail =>
          cases isFirst <;>
            simp [runGet, progress_on_advance, statusWritten, isProgress]
        | syncFail =>
          cases isFirst <;>
            simp [runGet, progress_on_advance, statusWritten, isProgress]
        | ok =>
          cases isFirst <;> cases isLast <;>
            simp [runGet, progress_on_advance, statusWritten, isProgress, ih]

/-- The sink only ever grows: the final sink extends the initial one, so a
failure leaves every previously written byte in place. -/
theorem runGet_sink_extend (script : List WalkOutcome) :
    ∀ (w : Nat) (t : Option Nat) (sink : List Nat),
      ∃ tail, (runGet script w t sink).2 = sink ++ tail := by
  induction script with
  | nil =>
    intro w t sink
    exact ⟨[], by simp [runGet]⟩
  | cons step rest ih =>
    intro w t sink
    cases step with
    | fetchErr => exact ⟨[], by simp [runGet]⟩
    | walkErr => exact ⟨[], by simp [runGet]⟩
    | bucket => exact ih w t sink
    | directory => exact ih w t sink
    | symlink => exact ih w t sink
    | file isFirst isLast seg size wr =>
      cases seg with
      | nil =>
        cases isFirst <;> cases isLast <;>
          simpa only [runGet] using ih _ _ sink
      | cons b bs =>
        cases wr with
        | writeFail => exact ⟨[], by cases isFirst <;> simp [runGet]⟩
        | syncFail => exact ⟨[], by cases isFirst <;> simp [runGet]⟩
        | ok =>
          rcases ih (w + (b :: bs).length) (if isFirst then some size else t)
              (sink ++ b :: bs) with ⟨tail, htail⟩
          refine ⟨b :: bs ++ tail, ?_⟩
          cases isFirst <;> cases isLast <;>
            simp only [runGet] <;>
          rw [show ((sink ++ b :: bs) ++ tail : List Nat) = sink ++ (b :: bs ++ tail) by
            simp] at htail <;>
          exact htail

/-- The instrumented run projects to the plain run: same statuses, same
final sink. -/
theorem runGetA_fst (script : List WalkOutcome) :
    ∀ (w : Nat) (t : Option Nat) (sink : List Nat),
      (runGetA script w t sink).1.map Prod.fst = (runGet script w t sink).1 ∧
      (runGetA script w t sink).2 = (runGet script w t sink).2 := by
  induction script with
  | nil =>
    intro w t sink
    simp [runGetA, runGet]
  | cons step rest ih =>
    intro w t sink
    cases step with
    | fetchErr => simp [runGetA, runGet]
    | walkErr => simp [runGetA, runGet]
    | bucket => exact ih w t sink
    | directory => exact ih w t sink
    | symlink => exact ih w t sink
    | file isFirst isLast seg size wr =>
      cases seg with
      | nil =>
        cases isFirst <;> cases isLast <;> simp [runGetA, runGet, ih]
      | cons b bs =>
        cases wr with
        | writeFail => cases isFirst <;> simp [runGetA, runGet]
        | syncFail => cases isFirst <;> simp [runGetA, runGet]
        | ok =>
          cases isFirst <;> cases isLast <;> simp [runGetA, runGet, ih]

/-- Every yielded status carries a `written` equal to the durable sink
length at the moment of its yield: `written` is the cumulative number of
bytes successfully written-and-fsynced, at every emission. -/
theorem runGetA_written (script : List WalkOutcome) :
    ∀ (w : Nat) (t : Option Nat) (sink : List Nat), w = sink.length →
      ∀ p ∈ (runGetA script w t sink).1, statusWritten p.1 = p.2 := by
  induction script with
  | nil =>
    intro w t sink hw p hmem
    simp [runGetA] at hmem
    subst hmem
    simpa [statusWritten] using hw
  | cons step rest ih =>
    intro w t sink hw p hmem
    cases step with
    | fetchErr =>
      simp [runGetA] at hmem
      subst hmem
      simpa [statusWritten] using hw
    | walkErr =>
      simp [runGetA] at hmem
      subst hmem
      simpa [statusWritten] using hw
    | bucket => exact ih w t sink hw p hmem
    | directory => exact ih w t sink hw p hmem
    | symlink => exact ih w t sink hw p hmem
    | file isFirst isLast seg size wr =>
      cases seg with
      | nil =>
        cases isFirst <;> cases isLast <;>
          simp only [runGetA, List.nil_append, List.append_nil, List.cons_append,
            List.singleton_append] at hmem <;>
        first
          | exact ih _ _ _ hw p hmem
          | (rcases List.mem_cons.mp hmem with rfl | hmem
             · simpa [statusWritten] using hw
             · first
                 | exact ih _ _ _ hw p hmem
                 | (rcases List.mem_cons.mp hmem with rfl | hmem
                    · simpa [statusWritten] using hw
                    · exact ih _ _ _ hw p hmem))
      | cons b bs =>
        have hw1 : w + (b :: bs).length = (sink ++ b :: bs).length := by
          simp [hw]
        cases wr with
        | writeFail =>
          cases isFirst <;>
            simp only [runGetA, List.nil_append, List.append_nil, List.cons_append,
              List.singleton_append] at hmem <;>
          first
            | (rcases List.mem_cons.mp hmem with rfl | hmem
               · simpa [statusWritten] using hw
               · simp at hmem)
            | (rcases List.mem_cons.mp hmem with rfl | hmem
               · simpa [statusWritten] using hw
               · rcases List.mem_cons.mp hmem with rfl | hmem
                 · simpa [statusWritten] using hw
                 · simp at hmem)
        | syncFail =>
          cases isFirst <;>
            simp only [runGetA, List.nil_append, List.append_nil, List.cons_append,
              List.singleton_append] at hmem <;>
          first
            | (rcases List.mem_cons.mp hmem with rfl | hmem
               · simpa [statusWritten] using hw
               · simp at hmem)
            | (rcases List.mem_cons.mp hmem with rfl | hmem
               · simpa [statusWritten] using hw
               · rcases List.mem_cons.mp hmem with rfl | hmem
                 · simpa [statusWritten] using hw
                 · simp at hmem)
        | ok =>
          cases isFirst <;> cases isLast <;>
            simp only [runGetA, List.nil_append, List.append_nil, List.cons_append,
              List.singleton_append] at hmem <;>
          first
            | (rcases List.mem_cons.mp hmem with rfl | hmem
               · simpa [statusWritten] using hw
               · first
                   | exact ih _ _ _ hw1 p hmem
                   | (rcases List.mem_cons.mp hmem with rfl | hmem
                      · simpa [statusWritten] using hw
                      · first
                          | exact ih _ _ _ hw1 p hmem
                          | (rcases List.mem_cons.mp hmem with rfl | hmem
                             · simpa [statusWritten] using hw
                             · exact ih _ _ _ hw1 p hmem)))

/-! ## UnixFS claims -/

/-- C6, counterexample: a walk containing two files (each contributing its
first segment) reassigns `total_size` at the second file's first segment
(`foobar`-style DAGs aside, a directory walk can contain several files):
after the script `[file(first, last, [1], size 1, ok),
file(first, last, [2], size 5, ok)]`, the stream carries `total_size = some 1`
and later `total_size = some 5`, so "once Some, never changes" fails. -/
theorem unixfs_total_size_cex :
    total_size_stable
        ((runGet
          [WalkOutcome.file true true [1] 1 WriteOutcome.ok,
           WalkOutcome.file true true [2] 5 WriteOutcome.ok] 0 none []).1.map statusTotal) =
      false ∧
    (runGet
        [WalkOutcome.file true true [1] 1 WriteOutcome.ok,
         WalkOutcome.file true true [2] 5 WriteOutcome.ok] 0 none []).1.map statusTotal =
      [some 1, some 1, some 1, some 5, some 5, some 5, some 5] := by
  exact ⟨rfl, rfl⟩

/-- C6 (amended): for every `get` stream, `written` is monotonically
non-decreasing across the yielded statuses, and at every yield — witnessed
by the instrumented run, whose statuses project exactly to the stream's —
the carried `written` equals the cumulative number of bytes successfully
written-and-fsynced at that moment (in particular the terminal status
reports the final durable byte count); `total_size`, once it becomes
`Some`, never changes for the remainder of the stream PROVIDED the walk
contains at most one file's first segment (a single-file walk) — a walk
encountering a second file reassigns it to that file's size. -/
theorem unixfs_progress_invariants (script : List WalkOutcome) :
    monoFrom 0 (runGet script 0 none []).1 = true ∧
    (runGetA script 0 none []).1.map Prod.fst = (runGet script 0 none []).1 ∧
    (runGetA script 0 none []).2 = (runGet script 0 none []).2 ∧
    (∀ p ∈ (runGetA script 0 none []).1, statusWritten p.1 = p.2) ∧
    (∀ st ∈ (runGet script 0 none []).1, isTerminal st = true →
        statusWritten st = (runGet script 0 none []).2.length) ∧
    (countFirstFile script ≤ 1 →
        total_size_stable ((runGet script 0 none []).1.map statusTotal) = true) :=
  ⟨runGet_mono script 0 none [],
   (runGetA_fst script 0 none []).1,
   (runGetA_fst script 0 none []).2,
   runGetA_written script 0 none [] rfl,
   runGet_last_sink script 0 none [] rfl,
   fun h => runGet_total_stable script 0 [] h⟩

/-- Witness for C6 at a one-file script: every hypothesis of the theorem is
discharged at `[file(first, last, [1, 2], size 2, ok)]`. -/
theorem unixfs_progress_invariants_witness :
    statusWritten (UnixfsStatus.progress 0 (some 2)) = 0 ∧
    statusWritten (UnixfsStatus.completed 2 (some 2)) =
      (runGet [WalkOutcome.file true true [1, 2] 2 WriteOutcome.ok] 0 none []).2.length ∧
    total_size_stable
        ((runGet [WalkOutcome.file true true [1, 2] 2 WriteOutcome.ok] 0 none []).1.map
          statusTotal) = true :=
  ⟨(unixfs_progress_invariants [WalkOutcome.file true true [1, 2] 2 WriteOutcome.ok]).2.2.2.1
      (UnixfsStatus.progress 0 (some 2), 0) (by decide),
   (unixfs_progress_invariants [WalkOutcome.file true true [1, 2] 2 WriteOutcome.ok]).2.2.2.2.1
      (UnixfsStatus.completed 2 (some 2)) (by decide) rfl,
   (unixfs_progress_invariants [WalkOutcome.file true true [1, 2] 2 WriteOutcome.ok]).2.2.2.2.2
      (by decide)⟩

/-- C7: every `get` stream yields exactly one terminal status
(`CompletedStatus` when the walk runs out of pending links, `FailedStatus`
on a fetch, write, fsync or decoding error) and it is the last item; every
advance of `written` is announced by a `ProgressStatus` carrying the new
value; and the sink is never truncated, so on failure the partial contents
are left in place. -/
theorem unixfs_stream_shape (script : List WalkOutcome) :
    terminal_once (runGet script 0 none []).1 = true ∧
    progress_on_advance 0 (runGet script 0 none []).1 = true ∧
    (∀ (w : Nat) (t : Option Nat) (sink : List Nat),
        ∃ tail, (runGet script w t sink).2 = sink ++ tail) :=
  ⟨runGet_terminal_once script 0 none [],
   runGet_progress_flag script 0 none [],
   fun w t sink => runGet_sink_extend script w t sink⟩

end UnixFsGet
